import Mathlib

/-!
Verification of the spreadsheet-transformation pipeline of
`item_uploader/automation_steps.py` and `item_uploader/utils_common.py`.

Spreadsheet cell values are `String`; a worksheet value range is a
row-major `List (List String)`.  Python `-1` column sentinels are kept as
`Int`.  Python `str` operations are modelled character-wise over
`String.data`; the model covers the ASCII range faithfully (the Unicode
whitespace class is modelled by the characters the pipeline actually
handles: ASCII whitespace plus NBSP).
-/

set_option maxHeartbeats 1000000

namespace Shopee

/-- Matrix of cell values, as returned by `get_all_values()`. -/
abbrev Matrix := List (List String)

/-- Characters matched by Python `\s` / stripped by `str.strip`
(ASCII whitespace plus the no-break space handled by `norm`). -/
def pyWs (c : Char) : Bool :=
  c = ' ' || c = '\t' || c = '\n' || c = '\r' || c = '\x0b' || c = '\x0c' || c = ' '

/-- Python `str.strip()` (character-wise model). -/
def pyStrip (s : String) : String :=
  ⟨((s.data.dropWhile pyWs).reverse.dropWhile pyWs).reverse⟩

/-- Python `str.lower()`, ASCII model (`Char.toLower`). -/
def strLower (s : String) : String :=
  ⟨s.data.map Char.toLower⟩

/-- `utils_common.norm`: `str(s or "").strip().lower()` then NBSP to space and
zero-width characters removed. -/
def norm (s : String) : String :=
  ⟨((((pyStrip s).data.map Char.toLower).map
      (fun c => if c = ' ' then ' ' else c)).filter
      (fun c => !(c = '​' || c = '‌' || c = '‍')))⟩

/-- The character class kept by `header_key` (regex `[a-z0-9\-]`). -/
def headerKeep (c : Char) : Bool :=
  (97 ≤ c.toNat && c.toNat ≤ 122) || (48 ≤ c.toNat && c.toNat ≤ 57) || c.toNat = 45

/-- `utils_common.header_key`: keep only `[a-z0-9-]` of `norm s`. -/
def header_key (s : String) : String :=
  ⟨(norm s).data.filter headerKeep⟩

theorem headerKeep_not_pyWs {c : Char} (h : headerKeep c = true) : pyWs c = false := by
  by_contra hws
  rw [Bool.not_eq_false] at hws
  simp only [pyWs, Bool.or_eq_true, decide_eq_true_eq] at hws
  rcases hws with ((((((hc | hc) | hc) | hc) | hc) | hc) | hc) <;>
    (subst hc; revert h; decide)

theorem headerKeep_toLower {c : Char} (h : headerKeep c = true) : c.toLower = c := by
  have hn : ¬(c.toNat ≥ 65 ∧ c.toNat ≤ 90) := by
    simp only [headerKeep, Bool.or_eq_true, Bool.and_eq_true, decide_eq_true_eq] at h
    omega
  simp only [Char.toLower]
  rw [if_neg hn]

theorem headerKeep_not_nbsp {c : Char} (h : headerKeep c = true) : c ≠ ' ' := by
  intro hc; subst hc; revert h; decide

theorem headerKeep_not_zw {c : Char} (h : headerKeep c = true) :
    (!(c = '​' || c = '‌' || c = '‍')) = true := by
  simp only [Bool.not_eq_true', Bool.or_eq_false_iff, decide_eq_false_iff_not]
  refine ⟨⟨?_, ?_⟩, ?_⟩ <;> · intro hc; subst hc; revert h; decide

theorem dropWhile_eq_self_of_all {p : Char → Bool} {l : List Char}
    (h : ∀ c ∈ l, p c = false) : l.dropWhile p = l := by
  cases l with
  | nil => rfl
  | cons x xs =>
    simp [List.dropWhile, h x (List.mem_cons_self x xs)]

theorem pyStrip_of_all_keep {l : List Char} (h : ∀ c ∈ l, headerKeep c = true) :
    pyStrip ⟨l⟩ = ⟨l⟩ := by
  unfold pyStrip
  simp only
  rw [dropWhile_eq_self_of_all (fun c hc => headerKeep_not_pyWs (h c hc)),
    dropWhile_eq_self_of_all (fun c hc => headerKeep_not_pyWs (h c (List.mem_reverse.mp hc))),
    List.reverse_reverse]

theorem norm_of_all_keep {l : List Char} (h : ∀ c ∈ l, headerKeep c = true) :
    norm ⟨l⟩ = ⟨l⟩ := by
  unfold norm
  rw [pyStrip_of_all_keep h]
  simp only
  rw [List.map_congr_left (fun c hc => headerKeep_toLower (h c hc)), List.map_id',
    List.map_congr_left (fun c hc => if_neg (headerKeep_not_nbsp (h c hc))), List.map_id',
    List.filter_eq_self.mpr (fun c hc => headerKeep_not_zw (h c hc))]

theorem char_le_iff_toNat {a c : Char} : a ≤ c ↔ a.toNat ≤ c.toNat := by
  simp [Char.le_def, UInt32.le_def, BitVec.le_def, Char.toNat, UInt32.toNat]

/-- Claim C9: `header_key` is idempotent and produces only lowercase ASCII
letters, digits and hyphens. -/
theorem header_key_idempotent_and_alphabet (s : String) :
    header_key (header_key s) = header_key s ∧
    ∀ c ∈ (header_key s).data,
      ('a' ≤ c ∧ c ≤ 'z') ∨ ('0' ≤ c ∧ c ≤ '9') ∨ c = '-' := by
  have hall : ∀ c ∈ (header_key s).data, headerKeep c = true := by
    intro c hc
    unfold header_key at hc
    simp only at hc
    exact (List.mem_filter.mp hc).2
  constructor
  · conv_lhs => rw [header_key]
    rw [norm_of_all_keep hall]
    simp only
    rw [List.filter_eq_self.mpr hall]
  · intro c hc
    have h := hall c hc
    simp only [headerKeep, Bool.or_eq_true, Bool.and_eq_true, decide_eq_true_eq] at h
    rcases h with (⟨h1, h2⟩ | ⟨h1, h2⟩) | h1
    · exact Or.inl ⟨char_le_iff_toNat.mpr h1, char_le_iff_toNat.mpr h2⟩
    · exact Or.inr (Or.inl ⟨char_le_iff_toNat.mpr h1, char_le_iff_toNat.mpr h2⟩)
    · refine Or.inr (Or.inr ?_)
      rw [← Char.ofNat_toNat c, h1]

/-! ## `strip_category_id` and `top_of_category` (utils_common.py) -/

/-- Scanner for the regex prefix `^\s*\d+\s*-` of `strip_category_id`;
returns the remainder after the dash when the prefix matches.  (`\s`, `\d`
and `-` are pairwise disjoint, so the greedy scan is exact.) -/
def idNumDash (l : List Char) : Option (List Char) :=
  let l1 := l.dropWhile pyWs
  match l1.takeWhile Char.isDigit with
  | [] => none
  | _ :: _ =>
    match (l1.dropWhile Char.isDigit).dropWhile pyWs with
    | '-' :: r => some r
    | _ => none

/-- Matching of `(.+)$` (no DOTALL): the whole remainder, which may drop one
final newline, must be non-empty and newline-free; returns the group. -/
def reDotPlusEnd (rem : List Char) : Option (List Char) :=
  let core := if rem.getLast? = some '\n' then rem.dropLast else rem
  if core ≠ [] ∧ '\n' ∉ core then some core else none

/-- Backtracking of the final `\s*` of `^\s*\d+\s*-\s*(.+)$`: the regex
engine consumes as much whitespace as possible such that `(.+)$` still
matches the rest. -/
def wsBacktrack : Nat → List Char → Option (List Char)
  | k, r =>
    match reDotPlusEnd (r.drop k) with
    | some g => some g
    | none =>
      match k with
      | 0 => none
      | k' + 1 => wsBacktrack k' r

/-- `utils_common.strip_category_id`:
`re.match(r"^\s*\d+\s*-\s*(.+)$", s)` and return the group, else `s`. -/
def strip_category_id (cat : String) : String :=
  match idNumDash cat.data with
  | none => cat
  | some r =>
    match wsBacktrack (r.takeWhile pyWs).length r with
    | some g => ⟨g⟩
    | none => cat

/-- Python `s.split(sep, 1)[0]`. -/
def splitHead (s : String) (sep : Char) : String :=
  ⟨s.data.takeWhile (fun c => c ≠ sep)⟩

/-- `utils_common.top_of_category`: ID prefix stripped, first segment for the
first separator found among `/`, `>`, `|`, `\`, trimmed and lowercased;
`None` for a falsy input or blank segment. -/
def top_of_category (cat : String) : Option String :=
  if cat = "" then none
  else
    let tail0 := strip_category_id cat
    let tail1 :=
      if tail0.data.contains '/' then splitHead tail0 '/'
      else if tail0.data.contains '>' then splitHead tail0 '>'
      else if tail0.data.contains '|' then splitHead tail0 '|'
      else if tail0.data.contains '\\' then splitHead tail0 '\\'
      else tail0
    let t := pyStrip tail1
    if t = "" then none else some (strLower t)

/-- Claim C4, counterexample: the claim says `top_of_category` returns the
first slash segment merely trimmed, but the code also lowercases it:
on "Home/Kitchen" it does not return "Home" (it returns "home"). -/
theorem top_of_category_not_trimmed_first_segment :
    pyStrip "Home" = "Home" ∧ top_of_category ("Home" ++ "/" ++ "Kitchen") ≠ some "Home" := by
  decide

theorem takeWhile_append_of_all {p : Char → Bool} {l1 l2 : List Char} {x : Char}
    (h1 : ∀ c ∈ l1, p c = true) (hx : p x = false) :
    (l1 ++ x :: l2).takeWhile p = l1 := by
  induction l1 with
  | nil => simp [List.takeWhile, hx]
  | cons a l ih =>
    simp only [List.cons_append, List.takeWhile_cons, h1 a (List.mem_cons_self a l)]
    simp [ih (fun c hc => h1 c (List.mem_cons_of_mem a hc))]

/-- Claim C4, amended: for a category of the form `A ++ "/" ++ rest` whose
start is not shaped like a numeric-ID prefix, `top_of_category` returns the
first slash segment trimmed AND lowercased (`none` if that segment is
blank), and it returns `none` on the empty string. -/
theorem top_of_category_spec :
    top_of_category "" = none ∧
    ∀ A rest : String, (idNumDash (A ++ "/" ++ rest).data).isNone = true →
      '/' ∉ A.data →
      top_of_category (A ++ "/" ++ rest) =
        if pyStrip A = "" then none else some (strLower (pyStrip A)) := by
  constructor
  · rfl
  · intro A rest hid hslash
    have hdata : (A ++ "/" ++ rest).data = A.data ++ '/' :: rest.data := by
      simp [String.data_append]
    have hne : A ++ "/" ++ rest ≠ "" := by
      intro h
      have := congrArg String.data h
      rw [hdata] at this
      simp at this
    have hstrip : strip_category_id (A ++ "/" ++ rest) = A ++ "/" ++ rest := by
      unfold strip_category_id
      rcases h : idNumDash (A ++ "/" ++ rest).data with _ | r
      · rfl
      · rw [h] at hid
        simp [Option.isNone] at hid
    have hcontains : (A ++ "/" ++ rest).data.contains '/' = true := by
      rw [hdata]
      simp [List.contains_eq_any_beq]
    have hA : ∀ c ∈ A.data, (fun c => decide (c ≠ '/')) c = true := by
      intro c hc
      simp only [decide_eq_true_eq]
      intro h
      subst h
      exact hslash hc
    have hsplit : splitHead (A ++ "/" ++ rest) '/' = A := by
      unfold splitHead
      rw [hdata, takeWhile_append_of_all hA (by decide)]
    rw [top_of_category, if_neg hne]
    simp only [hstrip, hcontains, if_true]
    rw [hsplit]

/-- Witness for the amended C4 at a concrete input. -/
theorem top_of_category_spec_witness :
    top_of_category ("Home" ++ "/" ++ "Kitchen") = some "home" := by
  rw [top_of_category_spec.2 "Home" "Kitchen" (by decide) (by decide)]
  decide

/-! ## `_merge` of run_step_2: merging half-open row spans -/

/-- Lexicographic order on `(start, end)` pairs: Python `list.sort()` on
tuples.  It is a total order, so any sorting algorithm produces exactly the
list `spans.sort()` produces. -/
def spanLe (a b : Nat × Nat) : Prop :=
  a.1 < b.1 ∨ (a.1 = b.1 ∧ a.2 ≤ b.2)

instance : DecidableRel spanLe := fun a b => by
  unfold spanLe
  exact inferInstance

instance : IsTotal (Nat × Nat) spanLe :=
  ⟨fun a b => by unfold spanLe; omega⟩

instance : IsTrans (Nat × Nat) spanLe :=
  ⟨fun a b c hab hbc => by unfold spanLe at *; omega⟩

/-- The loop of `_merge`: `merged[-1]` is the accumulator `last`; a span
whose start is `≤` the current end extends it, otherwise `last` is frozen. -/
def mergeLoop : Nat × Nat → List (Nat × Nat) → List (Nat × Nat)
  | last, [] => [last]
  | last, sp :: rest =>
    if sp.1 ≤ last.2 then mergeLoop (last.1, max last.2 sp.2) rest
    else last :: mergeLoop sp rest

/-- `automation_steps._merge` (inside run_step_2). -/
def mergeSpans (spans : List (Nat × Nat)) : List (Nat × Nat) :=
  match List.insertionSort spanLe spans with
  | [] => []
  | x :: rest => mergeLoop x rest

/-- Row `x` is covered by the half-open span `sp`. -/
def covers (sp : Nat × Nat) (x : Nat) : Prop :=
  sp.1 ≤ x ∧ x < sp.2

instance (sp : Nat × Nat) (x : Nat) : Decidable (covers sp x) := by
  unfold covers
  exact inferInstance

/-- Successive output spans do not touch: start sorted and gap after end. -/
def spanGap (a b : Nat × Nat) : Prop :=
  a.1 ≤ b.1 ∧ a.2 < b.1

instance : IsTrans (Nat × Nat) spanGap :=
  ⟨fun a b c hab hbc => by unfold spanGap at *; omega⟩

theorem mergeLoop_cov (x : Nat) :
    ∀ (l : List (Nat × Nat)) (last : Nat × Nat),
      (∀ sp ∈ l, last.1 ≤ sp.1) → l.Pairwise (fun a b => a.1 ≤ b.1) →
      ((∃ sp ∈ mergeLoop last l, covers sp x) ↔
        covers last x ∨ ∃ sp ∈ l, covers sp x) := by
  intro l
  induction l with
  | nil =>
    intro last _ _
    simp [mergeLoop]
  | cons sp rest ih =>
    intro last hst hsorted
    rw [mergeLoop]
    rcases List.pairwise_cons.mp hsorted with ⟨hsp, hrest⟩
    by_cases hm : sp.1 ≤ last.2
    · rw [if_pos hm]
      rw [ih (last.1, max last.2 sp.2) (fun q hq => hst q (List.mem_cons_of_mem sp hq)) hrest]
      have hls : last.1 ≤ sp.1 := hst sp (List.mem_cons_self sp rest)
      constructor
      · rintro (hc | hc)
        · unfold covers at hc ⊢
          simp only [List.mem_cons]
          rcases Nat.lt_or_ge x last.2 with hx | hx
          · exact Or.inl ⟨hc.1, hx⟩
          · exact Or.inr ⟨sp, Or.inl rfl, by omega⟩
        · exact Or.inr (by
            rcases hc with ⟨q, hq, hqc⟩
            exact ⟨q, List.mem_cons_of_mem sp hq, hqc⟩)
      · rintro (hc | ⟨q, hq, hqc⟩)
        · exact Or.inl (by unfold covers at hc ⊢; omega)
        · rcases List.mem_cons.mp hq with rfl | hq'
          · exact Or.inl (by unfold covers at hqc ⊢; omega)
          · exact Or.inr ⟨q, hq', hqc⟩
    · rw [if_neg hm]
      have := ih sp hsp hrest
      constructor
      · rintro ⟨q, hq, hqc⟩
        rcases List.mem_cons.mp hq with rfl | hq'
        · exact Or.inl hqc
        · rcases (this.mp ⟨q, hq', hqc⟩) with hc | ⟨p, hp, hpc⟩
          · exact Or.inr ⟨sp, List.mem_cons_self sp rest, hc⟩
          · exact Or.inr ⟨p, List.mem_cons_of_mem sp hp, hpc⟩
      · rintro (hc | ⟨q, hq, hqc⟩)
        · exact ⟨last, List.mem_cons_self _ _, hc⟩
        · rcases List.mem_cons.mp hq with rfl | hq'
          · rcases (this.mpr (Or.inl hqc)) with ⟨p, hp, hpc⟩
            exact ⟨p, List.mem_cons_of_mem last hp, hpc⟩
          · rcases (this.mpr (Or.inr ⟨q, hq', hqc⟩)) with ⟨p, hp, hpc⟩
            exact ⟨p, List.mem_cons_of_mem last hp, hpc⟩

theorem mergeLoop_head :
    ∀ (l : List (Nat × Nat)) (last : Nat × Nat),
      ∃ e tl, mergeLoop last l = (last.1, e) :: tl ∧ last.2 ≤ e := by
  intro l
  induction l with
  | nil =>
    intro last
    exact ⟨last.2, [], rfl, Nat.le_refl _⟩
  | cons sp rest ih =>
    intro last
    rw [mergeLoop]
    by_cases hm : sp.1 ≤ last.2
    · rw [if_pos hm]
      rcases ih (last.1, max last.2 sp.2) with ⟨e, tl, heq, hle⟩
      exact ⟨e, tl, heq, le_trans (Nat.le_max_left _ _) hle⟩
    · rw [if_neg hm]
      exact ⟨last.2, mergeLoop sp rest, rfl, Nat.le_refl _⟩

theorem mergeLoop_chain :
    ∀ (l : List (Nat × Nat)) (last : Nat × Nat),
      (∀ sp ∈ l, last.1 ≤ sp.1) → l.Pairwise (fun a b => a.1 ≤ b.1) →
      List.Chain' spanGap (mergeLoop last l) := by
  intro l
  induction l with
  | nil =>
    intro last _ _
    simp [mergeLoop]
  | cons sp rest ih =>
    intro last hst hsorted
    rcases List.pairwise_cons.mp hsorted with ⟨hsp, hrest⟩
    rw [mergeLoop]
    by_cases hm : sp.1 ≤ last.2
    · rw [if_pos hm]
      exact ih (last.1, max last.2 sp.2) (fun q hq => hst q (List.mem_cons_of_mem sp hq)) hrest
    · rw [if_neg hm]
      have hchain := ih sp hsp hrest
      rcases mergeLoop_head rest sp with ⟨e, tl, heq, _⟩
      rw [heq]
      rw [heq] at hchain
      exact List.Chain'.cons ⟨hst sp (List.mem_cons_self sp rest), by omega⟩ hchain

/-- Claim C10: `_merge` returns a sorted list of pairwise disjoint half-open
spans covering exactly the union of the input spans. -/
theorem mergeSpans_spec (spans : List (Nat × Nat)) :
    List.Chain' spanGap (mergeSpans spans) ∧
    List.Pairwise (fun a b => ∀ x : Nat, ¬(covers a x ∧ covers b x)) (mergeSpans spans) ∧
    ∀ x : Nat, (∃ sp ∈ spans, covers sp x) ↔ ∃ sp ∈ mergeSpans spans, covers sp x := by
  have hperm := List.perm_insertionSort spanLe spans
  have hsorted := List.sorted_insertionSort spanLe spans
  have hchain : List.Chain' spanGap (mergeSpans spans) := by
    unfold mergeSpans
    rcases h : List.insertionSort spanLe spans with _ | ⟨x, rest⟩
    · simp
    · rw [h] at hsorted
      rcases List.pairwise_cons.mp hsorted with ⟨hx, hrest⟩
      exact mergeLoop_chain rest x
        (fun sp hsp => by have := hx sp hsp; unfold spanLe at this; omega)
        (hrest.imp (fun h => by unfold spanLe at h; omega))
  refine ⟨hchain, ?_, ?_⟩
  · have hpw := List.chain'_iff_pairwise.mp hchain
    exact hpw.imp (fun hab x hx => by
      unfold spanGap at hab
      unfold covers at hx
      omega)
  · intro x
    have hmem : (∃ sp ∈ spans, covers sp x) ↔
        ∃ sp ∈ List.insertionSort spanLe spans, covers sp x := by
      constructor
      · rintro ⟨sp, hsp, hc⟩
        exact ⟨sp, hperm.symm.subset hsp, hc⟩
      · rintro ⟨sp, hsp, hc⟩
        exact ⟨sp, hperm.subset hsp, hc⟩
    rw [hmem]
    unfold mergeSpans
    rcases h : List.insertionSort spanLe spans with _ | ⟨y, rest⟩
    · simp
    · rw [h] at hsorted
      rcases List.pairwise_cons.mp hsorted with ⟨hy, hrest⟩
      rw [mergeLoop_cov x rest y
        (fun sp hsp => by have := hy sp hsp; unfold spanLe at this; omega)
        (hrest.imp (fun h => by unfold spanLe at h; omega))]
      simp

/-! ## Column resolution: `_pick_index_by_candidates` / `_find_col_index` -/

/-- Index of the first element satisfying `p` (a Python for-loop that
returns `i` on the first hit). -/
def firstIdx? {α : Type} (p : α → Bool) : List α → Option Nat
  | [] => none
  | x :: l => if p x then some 0 else (firstIdx? p l).map (· + 1)

/-- First `some` produced by `f` along the list (outer Python loop over
candidates). -/
def firstHit? {α β : Type} (f : α → Option β) : List α → Option β
  | [] => none
  | x :: l =>
    match f x with
    | some b => some b
    | none => firstHit? f l

/-- Python substring containment `needle in hay`. -/
def hasSubstr (hay needle : List Char) : Bool :=
  hay.tails.any (fun t => needle.isPrefixOf t)

/-- `automation_steps._pick_index_by_candidates`: exact match first (in
candidate order), then containment (in candidate order), else `-1`. -/
def _pick_index_by_candidates (header_row : List String) (candidates : List String) : Int :=
  let keys := header_row.map header_key
  match firstHit? (fun cand => firstIdx? (fun k => k = header_key cand) keys) candidates with
  | some i => (i : Int)
  | none =>
    match firstHit? (fun cand =>
        if header_key cand = "" then none
        else firstIdx? (fun k => hasSubstr k.data (header_key cand).data) keys) candidates with
    | some i => (i : Int)
    | none => -1

/-- The alias key list built by `_find_col_index`. -/
def aliasesOf (name : String) (extra_alias : List String) : List String :=
  extra_alias.map header_key ++ [header_key name]

/-- `automation_steps._find_col_index`: first key equal to an alias, else
first key containing a non-empty alias, else `-1`. -/
def _find_col_index (keys : List String) (name : String) (extra_alias : List String) : Int :=
  let aliases := aliasesOf name extra_alias
  match firstIdx? (fun k => aliases.contains k) keys with
  | some i => (i : Int)
  | none =>
    match firstIdx? (fun k => aliases.any (fun a => a ≠ "" && hasSubstr k.data a.data)) keys with
    | some i => (i : Int)
    | none => -1

/-- The column index the claim describes: the first header whose normalized
key exactly equals some candidate key (defined from the claim wording, for
comparison with the code). -/
def specFirstExactIdx (header_row : List String) (candidates : List String) : Option Nat :=
  firstIdx? (fun h => candidates.any (fun c => header_key c == header_key h)) header_row

/-- Claim C3, counterexample: `_pick_index_by_candidates` iterates candidates
in the outer loop, so with headers `["b", "a"]` and candidates `["a", "b"]`
it returns index 1 (first header matching candidate "a"), not the first
header that matches some candidate (index 0, header "b"). -/
theorem pick_index_not_first_matching_header :
    specFirstExactIdx ["b", "a"] ["a", "b"] = some 0 ∧
    _pick_index_by_candidates ["b", "a"] ["a", "b"] = 1 := by
  decide

theorem firstIdx?_eq_none {α : Type} {p : α → Bool} {l : List α} :
    firstIdx? p l = none ↔ ∀ x ∈ l, p x = false := by
  induction l with
  | nil => simp [firstIdx?]
  | cons x l ih =>
    rw [firstIdx?]
    by_cases hp : p x = true
    · simp [hp]
    · rw [if_neg hp]
      simp only [Option.map_eq_none', ih, List.mem_cons]
      constructor
      · rintro h y (rfl | hy)
        · exact Bool.not_eq_true _ ▸ eq_false_of_ne_true hp
        · exact h y hy
      · intro h y hy
        exact h y (Or.inr hy)

theorem firstIdx?_eq_some {α : Type} {p : α → Bool} {l : List α} {i : Nat} :
    firstIdx? p l = some i ↔
      (∃ x, l.get? i = some x ∧ p x = true) ∧
      ∀ j, j < i → ∀ y, l.get? j = some y → p y = false := by
  induction l generalizing i with
  | nil => simp [firstIdx?]
  | cons x l ih =>
    rw [firstIdx?]
    by_cases hp : p x = true
    · rw [if_pos hp]
      constructor
      · intro h
        rcases Option.some_inj.mp h with rfl
        exact ⟨⟨x, rfl, hp⟩, fun j hj y hy => absurd hj (Nat.not_lt_zero j)⟩
      · rintro ⟨⟨y, hy, hpy⟩, hmin⟩
        cases i with
        | zero => rfl
        | succ i =>
          exact absurd hp (by
            rw [hmin 0 (Nat.succ_pos i) x rfl]
            exact Bool.false_ne_true)
    · rw [if_neg hp]
      cases i with
      | zero =>
        simp only [Option.map_eq_some', List.get?_cons_zero]
        constructor
        · rintro ⟨i', _, h⟩
          exact absurd h (by omega)
        · rintro ⟨⟨y, hy, hpy⟩, _⟩
          rcases Option.some_inj.mp hy with rfl
          exact absurd hpy hp
      | succ i =>
        simp only [Option.map_eq_some']
        constructor
        · rintro ⟨i', hi', heq⟩
          have : i' = i := by omega
          subst this
          rcases ih.mp hi' with ⟨⟨y, hy, hpy⟩, hmin⟩
          refine ⟨⟨y, by simpa using hy, hpy⟩, ?_⟩
          intro j hj z hz
          cases j with
          | zero =>
            rcases Option.some_inj.mp hz with rfl
            exact eq_false_of_ne_true hp
          | succ j =>
            exact hmin j (by omega) z (by simpa using hz)
        · rintro ⟨⟨y, hy, hpy⟩, hmin⟩
          refine ⟨i, ih.mpr ⟨⟨y, by simpa using hy, hpy⟩, ?_⟩, rfl⟩
          intro j hj z hz
          exact hmin (j + 1) (by omega) z (by simpa using hz)

theorem firstHit?_eq_none {α β : Type} {f : α → Option β} {l : List α} :
    firstHit? f l = none ↔ ∀ x ∈ l, f x = none := by
  induction l with
  | nil => simp [firstHit?]
  | cons x l ih =>
    rw [firstHit?]
    rcases h : f x with _ | b
    · simp only [List.mem_cons, ih]
      constructor
      · rintro hall y (rfl | hy)
        · exact h
        · exact hall y hy
      · intro hall y hy
        exact hall y (Or.inr hy)
    · simp only [List.mem_cons]
      constructor
      · intro hh
        exact absurd hh (by simp)
      · intro hall
        exact absurd (hall x (Or.inl rfl)) (by simp [h])

theorem firstHit?_eq_some {α β : Type} {f : α → Option β} {l : List α} {b : β} :
    firstHit? f l = some b ↔
      ∃ i x, l.get? i = some x ∧ f x = some b ∧
        ∀ j, j < i → ∀ y, l.get? j = some y → f y = none := by
  induction l generalizing b with
  | nil => simp [firstHit?]
  | cons x l ih =>
    rw [firstHit?]
    rcases h : f x with _ | c
    · rw [ih]
      constructor
      · rintro ⟨i, y, hy, hfy, hmin⟩
        refine ⟨i + 1, y, by simpa using hy, hfy, ?_⟩
        intro j hj z hz
        cases j with
        | zero =>
          rcases Option.some_inj.mp hz with rfl
          exact h
        | succ j =>
          exact hmin j (by omega) z (by simpa using hz)
      · rintro ⟨i, y, hy, hfy, hmin⟩
        cases i with
        | zero =>
          rcases Option.some_inj.mp hy with rfl
          exact absurd hfy (by simp [h])
        | succ i =>
          refine ⟨i, y, by simpa using hy, hfy, ?_⟩
          intro j hj z hz
          exact hmin (j + 1) (by omega) z (by simpa using hz)
    · constructor
      · intro hh
        rcases Option.some_inj.mp hh with rfl
        exact ⟨0, x, rfl, h, fun j hj y hy => absurd hj (Nat.not_lt_zero j)⟩
      · rintro ⟨i, y, hy, hfy, hmin⟩
        cases i with
        | zero =>
          rcases Option.some_inj.mp hy with rfl
          rw [h] at hfy
          exact hfy
        | succ i =>
          exact absurd h (by
            rw [hmin 0 (Nat.succ_pos i) x rfl]
            simp)

theorem contains_iff_mem {l : List String} {a : String} :
    l.contains a = true ↔ a ∈ l := by
  induction l with
  | nil => simp
  | cons x l ih =>
    rw [List.contains_cons]
    simp only [Bool.or_eq_true, beq_iff_eq, ih, List.mem_cons]

theorem pick_keys_only {h h' cands : List String}
    (heq : h.map header_key = h'.map header_key) :
    _pick_index_by_candidates h cands = _pick_index_by_candidates h' cands := by
  simp only [_pick_index_by_candidates]
  rw [heq]

theorem find_col_exact {keys : List String} {name : String} {extra : List String}
    (h : ∃ k ∈ keys, k ∈ aliasesOf name extra) :
    ∃ (i : Nat) (k : String), _find_col_index keys name extra = (i : Int) ∧
      keys.get? i = some k ∧ k ∈ aliasesOf name extra ∧
      ∀ j, j < i → ∀ k', keys.get? j = some k' → k' ∉ aliasesOf name extra := by
  rcases h with ⟨k0, hk0, hk0al⟩
  rcases hfi : firstIdx? (fun k => (aliasesOf name extra).contains k) keys with _ | i
  · exfalso
    have hall := firstIdx?_eq_none.mp hfi k0 hk0
    have h2 := contains_iff_mem.mpr hk0al
    rw [hall] at h2
    exact Bool.false_ne_true h2
  · rcases firstIdx?_eq_some.mp hfi with ⟨⟨x, hx, hpx⟩, hmin⟩
    refine ⟨i, x, ?_, hx, contains_iff_mem.mp hpx, ?_⟩
    · simp only [_find_col_index]
      rw [hfi]
    · intro j hj k' hk' hmem
      have hfalse := hmin j hj k' hk'
      have h2 := contains_iff_mem.mpr hmem
      rw [hfalse] at h2
      exact Bool.false_ne_true h2

theorem find_col_neg_one {keys : List String} {name : String} {extra : List String} :
    _find_col_index keys name extra = -1 ↔
      ∀ k ∈ keys, k ∉ aliasesOf name extra ∧
        ∀ a ∈ aliasesOf name extra, a = "" ∨ hasSubstr k.data a.data = false := by
  rcases hfi : firstIdx? (fun k => (aliasesOf name extra).contains k) keys with _ | i
  · rcases hfj : firstIdx?
        (fun k => (aliasesOf name extra).any (fun a => a ≠ "" && hasSubstr k.data a.data))
        keys with _ | i
    · constructor
      · intro _ k hk
        have h1 := firstIdx?_eq_none.mp hfi k hk
        have h2 := firstIdx?_eq_none.mp hfj k hk
        constructor
        · intro hmem
          have h3 := contains_iff_mem.mpr hmem
          rw [h1] at h3
          exact Bool.false_ne_true h3
        · intro a ha
          by_contra hcon
          push_neg at hcon
          have hany : (aliasesOf name extra).any
              (fun a => a ≠ "" && hasSubstr k.data a.data) = true := by
            rw [List.any_eq_true]
            exact ⟨a, ha, by
              rw [Bool.and_eq_true, decide_eq_true_eq]
              exact ⟨hcon.1, Bool.ne_false_iff.mp hcon.2⟩⟩
          rw [h2] at hany
          exact Bool.false_ne_true hany
      · intro _
        simp only [_find_col_index]
        rw [hfi, hfj]
    · constructor
      · intro hcon
        exfalso
        have heq : _find_col_index keys name extra = (i : Int) := by
          simp only [_find_col_index]
          rw [hfi, hfj]
        rw [heq] at hcon
        omega
      · intro hall
        exfalso
        rcases firstIdx?_eq_some.mp hfj with ⟨⟨x, hx, hpx⟩, _⟩
        rw [List.any_eq_true] at hpx
        rcases hpx with ⟨a, ha, hp⟩
        rw [Bool.and_eq_true, decide_eq_true_eq] at hp
        rcases (hall x (List.get?_mem hx)).2 a ha with he | hf
        · exact hp.1 he
        · rw [hf] at hp
          exact Bool.false_ne_true hp.2
  · constructor
    · intro hcon
      exfalso
      have heq : _find_col_index keys name extra = (i : Int) := by
        simp only [_find_col_index]
        rw [hfi]
      rw [heq] at hcon
      omega
    · intro hall
      exfalso
      rcases firstIdx?_eq_some.mp hfi with ⟨⟨x, hx, hpx⟩, _⟩
      exact (hall x (List.get?_mem hx)).1 (contains_iff_mem.mp hpx)

theorem pick_exact_priority {hr cands : List String}
    (h : ∃ c ∈ cands, header_key c ∈ hr.map header_key) :
    ∃ (ci : Nat) (c : String), cands.get? ci = some c ∧
      header_key c ∈ hr.map header_key ∧
      (∀ cj, cj < ci → ∀ c', cands.get? cj = some c' →
        header_key c' ∉ hr.map header_key) ∧
      ∃ (i : Nat), _pick_index_by_candidates hr cands = (i : Int) ∧
        (hr.map header_key).get? i = some (header_key c) ∧
        ∀ j, j < i → ∀ k, (hr.map header_key).get? j = some k →
          k ≠ header_key c := by
  rcases h with ⟨c0, hc0, hc0k⟩
  rcases hfh : firstHit?
      (fun cand => firstIdx? (fun k => k = header_key cand) (hr.map header_key))
      cands with _ | i
  · exfalso
    have hnone := firstHit?_eq_none.mp hfh c0 hc0
    have hall := firstIdx?_eq_none.mp hnone (header_key c0) hc0k
    rw [decide_eq_false_iff_not] at hall
    exact hall rfl
  · rcases firstHit?_eq_some.mp hfh with ⟨ci, c, hc, hfc, hcmin⟩
    rcases firstIdx?_eq_some.mp hfc with ⟨⟨x, hx, hpx⟩, hmin⟩
    rw [decide_eq_true_eq] at hpx
    subst hpx
    refine ⟨ci, c, hc, List.get?_mem hx, ?_, i, ?_, hx, ?_⟩
    · intro cj hcj c' hc' hmem
      have hnone := hcmin cj hcj c' hc'
      have hall := firstIdx?_eq_none.mp hnone (header_key c') hmem
      rw [decide_eq_false_iff_not] at hall
      exact hall rfl
    · simp only [_pick_index_by_candidates]
      rw [hfh]
    · intro j hj k hk hke
      have hfalse := hmin j hj k hk
      rw [hke, decide_eq_false_iff_not] at hfalse
      exact hfalse rfl

theorem pick_neg_one {hr cands : List String} :
    _pick_index_by_candidates hr cands = -1 ↔
      ∀ c ∈ cands, header_key c ∉ hr.map header_key ∧
        (header_key c = "" ∨
          ∀ k ∈ hr.map header_key, hasSubstr k.data (header_key c).data = false) := by
  rcases hfh : firstHit?
      (fun cand => firstIdx? (fun k => k = header_key cand) (hr.map header_key))
      cands with _ | i
  · rcases hfg : firstHit?
        (fun cand =>
          if header_key cand = "" then none
          else firstIdx? (fun k => hasSubstr k.data (header_key cand).data)
            (hr.map header_key))
        cands with _ | i
    · constructor
      · intro _ c hc
        have h1 := firstHit?_eq_none.mp hfh c hc
        have h2 := firstHit?_eq_none.mp hfg c hc
        constructor
        · intro hmem
          have hall := firstIdx?_eq_none.mp h1 (header_key c) hmem
          rw [decide_eq_false_iff_not] at hall
          exact hall rfl
        · by_cases he : header_key c = ""
          · exact Or.inl he
          · rw [if_neg he] at h2
            exact Or.inr (firstIdx?_eq_none.mp h2)
      · intro _
        simp only [_pick_index_by_candidates]
        rw [hfh, hfg]
    · constructor
      · intro hcon
        exfalso
        have heq : _pick_index_by_candidates hr cands = (i : Int) := by
          simp only [_pick_index_by_candidates]
          rw [hfh, hfg]
        rw [heq] at hcon
        omega
      · intro hall
        exfalso
        rcases firstHit?_eq_some.mp hfg with ⟨ci, c, hc, hfc, _⟩
        by_cases he : header_key c = ""
        · rw [if_pos he] at hfc
          exact Option.noConfusion hfc
        · rw [if_neg he] at hfc
          rcases firstIdx?_eq_some.mp hfc with ⟨⟨x, hx, hpx⟩, _⟩
          rcases (hall c (List.get?_mem hc)).2 with h | h
          · exact he h
          · rw [h x (List.get?_mem hx)] at hpx
            exact Bool.false_ne_true hpx
  · constructor
    · intro hcon
      exfalso
      have heq : _pick_index_by_candidates hr cands = (i : Int) := by
        simp only [_pick_index_by_candidates]
        rw [hfh]
      rw [heq] at hcon
      omega
    · intro hall
      exfalso
      rcases firstHit?_eq_some.mp hfh with ⟨ci, c, hc, hfc, _⟩
      rcases firstIdx?_eq_some.mp hfc with ⟨⟨x, hx, hpx⟩, _⟩
      rw [decide_eq_true_eq] at hpx
      subst hpx
      exact (hall c (List.get?_mem hc)).1 (List.get?_mem hx)

theorem find_col_contains {keys : List String} {name : String} {extra : List String}
    (hne : ∀ k ∈ keys, k ∉ aliasesOf name extra)
    (h : ∃ k ∈ keys, ∃ a ∈ aliasesOf name extra,
      a ≠ "" ∧ hasSubstr k.data a.data = true) :
    ∃ (i : Nat) (k : String), _find_col_index keys name extra = (i : Int) ∧
      keys.get? i = some k ∧
      (∃ a ∈ aliasesOf name extra, a ≠ "" ∧ hasSubstr k.data a.data = true) ∧
      ∀ j, j < i → ∀ k', keys.get? j = some k' →
        ∀ a ∈ aliasesOf name extra, a = "" ∨ hasSubstr k'.data a.data = false := by
  have hfi : firstIdx? (fun k => (aliasesOf name extra).contains k) keys = none := by
    rw [firstIdx?_eq_none]
    intro k hk
    by_cases hc : (aliasesOf name extra).contains k = true
    · exact absurd (contains_iff_mem.mp hc) (hne k hk)
    · exact eq_false_of_ne_true hc
  rcases hfj : firstIdx?
      (fun k => (aliasesOf name extra).any (fun a => a ≠ "" && hasSubstr k.data a.data))
      keys with _ | i
  · exfalso
    rcases h with ⟨k0, hk0, a0, ha0, ha0ne, ha0sub⟩
    have hall := firstIdx?_eq_none.mp hfj k0 hk0
    have hany : (aliasesOf name extra).any
        (fun a => a ≠ "" && hasSubstr k0.data a.data) = true := by
      rw [List.any_eq_true]
      exact ⟨a0, ha0, by
        rw [Bool.and_eq_true, decide_eq_true_eq]
        exact ⟨ha0ne, ha0sub⟩⟩
    rw [hall] at hany
    exact Bool.false_ne_true hany
  · rcases firstIdx?_eq_some.mp hfj with ⟨⟨k, hk, hpk⟩, hmin⟩
    rw [List.any_eq_true] at hpk
    rcases hpk with ⟨a, ha, hp⟩
    rw [Bool.and_eq_true, decide_eq_true_eq] at hp
    refine ⟨i, k, ?_, hk, ⟨a, ha, hp.1, hp.2⟩, ?_⟩
    · simp only [_find_col_index]
      rw [hfi, hfj]
    · intro j hj k' hk' a' ha'
      have hfalse := hmin j hj k' hk'
      by_cases he : a' = ""
      · exact Or.inl he
      · right
        by_cases hs : hasSubstr k'.data a'.data = true
        · exfalso
          have hany : (aliasesOf name extra).any
              (fun a => a ≠ "" && hasSubstr k'.data a.data) = true := by
            rw [List.any_eq_true]
            exact ⟨a', ha', by
              rw [Bool.and_eq_true, decide_eq_true_eq]
              exact ⟨he, hs⟩⟩
          rw [hfalse] at hany
          exact Bool.false_ne_true hany
        · exact eq_false_of_ne_true hs

theorem pick_contains_priority {hr cands : List String}
    (hne : ∀ c ∈ cands, header_key c ∉ hr.map header_key)
    (h : ∃ c ∈ cands, header_key c ≠ "" ∧
      ∃ k ∈ hr.map header_key, hasSubstr k.data (header_key c).data = true) :
    ∃ (ci : Nat) (c : String), cands.get? ci = some c ∧ header_key c ≠ "" ∧
      (∀ cj, cj < ci → ∀ c', cands.get? cj = some c' →
        header_key c' = "" ∨
          ∀ k ∈ hr.map header_key, hasSubstr k.data (header_key c').data = false) ∧
      ∃ (i : Nat) (k : String), _pick_index_by_candidates hr cands = (i : Int) ∧
        (hr.map header_key).get? i = some k ∧
        hasSubstr k.data (header_key c).data = true ∧
        ∀ j, j < i → ∀ k', (hr.map header_key).get? j = some k' →
          hasSubstr k'.data (header_key c).data = false := by
  have hfh : firstHit?
      (fun cand => firstIdx? (fun k => k = header_key cand) (hr.map header_key))
      cands = none := by
    rw [firstHit?_eq_none]
    intro c hc
    show firstIdx? (fun k => k = header_key c) (hr.map header_key) = none
    rw [firstIdx?_eq_none]
    intro k hk
    rw [decide_eq_false_iff_not]
    intro hkc
    exact hne c hc (hkc ▸ hk)
  rcases hfg : firstHit?
      (fun cand =>
        if header_key cand = "" then none
        else firstIdx? (fun k => hasSubstr k.data (header_key cand).data)
          (hr.map header_key))
      cands with _ | i
  · exfalso
    rcases h with ⟨c0, hc0, hc0ne, k0, hk0, hk0sub⟩
    have hnone := firstHit?_eq_none.mp hfg c0 hc0
    rw [if_neg hc0ne] at hnone
    have hall := firstIdx?_eq_none.mp hnone k0 hk0
    rw [hall] at hk0sub
    exact Bool.false_ne_true hk0sub
  · rcases firstHit?_eq_some.mp hfg with ⟨ci, c, hc, hfc, hcmin⟩
    by_cases hce : header_key c = ""
    · rw [if_pos hce] at hfc
      exact Option.noConfusion hfc
    · rw [if_neg hce] at hfc
      rcases firstIdx?_eq_some.mp hfc with ⟨⟨k, hk, hpk⟩, hmin⟩
      refine ⟨ci, c, hc, hce, ?_, i, k, ?_, hk, hpk, hmin⟩
      · intro cj hcj c' hc'
        have hnone := hcmin cj hcj c' hc'
        by_cases hce' : header_key c' = ""
        · exact Or.inl hce'
        · rw [if_neg hce'] at hnone
          exact Or.inr (firstIdx?_eq_none.mp hnone)
      · simp only [_pick_index_by_candidates]
        rw [hfh, hfg]

/-- Claim C3, amended: both resolvers compare `header_key`-normalized keys
(so they depend on headers only through their normalized keys); an exact key
equality anywhere takes priority over containment; `_find_col_index` returns
the FIRST header key among the aliases, while `_pick_index_by_candidates`
tries CANDIDATES in order and returns the first header index matching the
earliest exactly-matching candidate; both return `-1` exactly when no alias
matches by equality or non-empty containment; and when no exact match
exists anywhere, each resolver returns the first containment match in its
own iteration order: `_find_col_index` the first header key containing some
non-empty alias, `_pick_index_by_candidates` the first header key containing
the earliest candidate whose non-empty key is contained in some header
key. -/
theorem column_resolution_spec :
    (∀ h h' cands : List String, h.map header_key = h'.map header_key →
      _pick_index_by_candidates h cands = _pick_index_by_candidates h' cands) ∧
    (∀ (keys : List String) (name : String) (extra : List String),
      (∃ k ∈ keys, k ∈ aliasesOf name extra) →
      ∃ (i : Nat) (k : String), _find_col_index keys name extra = (i : Int) ∧
        keys.get? i = some k ∧ k ∈ aliasesOf name extra ∧
        ∀ j, j < i → ∀ k', keys.get? j = some k' → k' ∉ aliasesOf name extra) ∧
    (∀ (keys : List String) (name : String) (extra : List String),
      _find_col_index keys name extra = -1 ↔
        ∀ k ∈ keys, k ∉ aliasesOf name extra ∧
          ∀ a ∈ aliasesOf name extra, a = "" ∨ hasSubstr k.data a.data = false) ∧
    (∀ hr cands : List String, (∃ c ∈ cands, header_key c ∈ hr.map header_key) →
      ∃ (ci : Nat) (c : String), cands.get? ci = some c ∧
        header_key c ∈ hr.map header_key ∧
        (∀ cj, cj < ci → ∀ c', cands.get? cj = some c' →
          header_key c' ∉ hr.map header_key) ∧
        ∃ (i : Nat), _pick_index_by_candidates hr cands = (i : Int) ∧
          (hr.map header_key).get? i = some (header_key c) ∧
          ∀ j, j < i → ∀ k, (hr.map header_key).get? j = some k →
            k ≠ header_key c) ∧
    (∀ hr cands : List String,
      _pick_index_by_candidates hr cands = -1 ↔
        ∀ c ∈ cands, header_key c ∉ hr.map header_key ∧
          (header_key c = "" ∨
            ∀ k ∈ hr.map header_key,
              hasSubstr k.data (header_key c).data = false)) ∧
    (∀ (keys : List String) (name : String) (extra : List String),
      (∀ k ∈ keys, k ∉ aliasesOf name extra) →
      (∃ k ∈ keys, ∃ a ∈ aliasesOf name extra,
        a ≠ "" ∧ hasSubstr k.data a.data = true) →
      ∃ (i : Nat) (k : String), _find_col_index keys name extra = (i : Int) ∧
        keys.get? i = some k ∧
        (∃ a ∈ aliasesOf name extra, a ≠ "" ∧ hasSubstr k.data a.data = true) ∧
        ∀ j, j < i → ∀ k', keys.get? j = some k' →
          ∀ a ∈ aliasesOf name extra, a = "" ∨ hasSubstr k'.data a.data = false) ∧
    (∀ hr cands : List String,
      (∀ c ∈ cands, header_key c ∉ hr.map header_key) →
      (∃ c ∈ cands, header_key c ≠ "" ∧
        ∃ k ∈ hr.map header_key, hasSubstr k.data (header_key c).data = true) →
      ∃ (ci : Nat) (c : String), cands.get? ci = some c ∧ header_key c ≠ "" ∧
        (∀ cj, cj < ci → ∀ c', cands.get? cj = some c' →
          header_key c' = "" ∨
            ∀ k ∈ hr.map header_key,
              hasSubstr k.data (header_key c').data = false) ∧
        ∃ (i : Nat) (k : String), _pick_index_by_candidates hr cands = (i : Int) ∧
          (hr.map header_key).get? i = some k ∧
          hasSubstr k.data (header_key c).data = true ∧
          ∀ j, j < i → ∀ k', (hr.map header_key).get? j = some k' →
            hasSubstr k'.data (header_key c).data = false) :=
  ⟨fun _ _ _ heq => pick_keys_only heq,
   fun _ _ _ h => find_col_exact h,
   fun _ _ _ => find_col_neg_one,
   fun _ _ h => pick_exact_priority h,
   fun _ _ => pick_neg_one,
   fun _ _ _ h1 h2 => find_col_contains h1 h2,
   fun _ _ h1 h2 => pick_contains_priority h1 h2⟩

/-- Witness for C3 at a concrete input. -/
theorem column_resolution_spec_witness :
    ∃ (i : Nat) (k : String),
      _find_col_index ["productname", "sku"] "sku" [] = (i : Int) ∧
      (["productname", "sku"] : List String).get? i = some k ∧
      k ∈ aliasesOf "sku" [] ∧
      ∀ j, j < i → ∀ k',
        (["productname", "sku"] : List String).get? j = some k' →
        k' ∉ aliasesOf "sku" [] :=
  column_resolution_spec.2.1 ["productname", "sku"] "sku" []
    ⟨"sku", by decide, by decide⟩

/-! ## Shared infrastructure for the TEM_OUTPUT loops (steps 2-6) -/

/-- `(row[i] if len(row) > i else "")` — also the result of all other
out-of-range guards used in the Python code. -/
def cellAt (row : List String) (i : Nat) : String :=
  row.getD i ""

/-- Guarded access by a possibly `-1` index:
`row[i] if 0 <= i < len(row) else ""`. -/
def cellI (row : List String) (i : Int) : String :=
  if 0 ≤ i ∧ i < (row.length : Int) then cellAt row i.toNat else ""

/-- Embedded-header test of steps 2-6:
`(row[1] if len(row) > 1 else "").strip().lower() == "category"`. -/
def isHdrRow (row : List String) : Bool :=
  strLower (pyStrip (cellAt row 1)) = "category"

/-- A pending `gspread.Cell(row, col, value)` update (1-based coordinates). -/
structure Cell where
  row : Nat
  col : Nat
  value : String
deriving DecidableEq

/-- Python dict assignment `d[k] = v`: replace in place or append. -/
def dictInsert {α β : Type} [DecidableEq α] : List (α × β) → α → β → List (α × β)
  | [], k, v => [(k, v)]
  | (k', v') :: rest, k, v =>
    if k' = k then (k, v) :: rest else (k', v') :: dictInsert rest k v

/-- Python dict lookup `d.get(k)`. -/
def dictGet {α β : Type} [DecidableEq α] : List (α × β) → α → Option β
  | [], _ => none
  | (k', v) :: rest, k => if k' = k then some v else dictGet rest k

/-- Collapse maximal whitespace runs to one space (regex `\s+` to a space). -/
def collapseWsGo (inWs : Bool) : List Char → List Char
  | [] => []
  | c :: rest =>
    if pyWs c then
      if inWs then collapseWsGo true rest
      else ' ' :: collapseWsGo true rest
    else c :: collapseWsGo false rest

/-- `re.sub(r"\s+", " ", s.lower())` as used for variation names and brand
names. -/
def wsNorm (s : String) : String :=
  ⟨collapseWsGo false (strLower s).data⟩

/-! ## STEP 4: stock / days-to-ship / weight / brand (run_step_4) -/

/-- The `sku_to_weight` and `sku_to_brand_name` dicts built from MARGIN. -/
def marginMaps (margin_vals : Matrix) :
    List (String × String) × List (String × String) :=
  match margin_vals with
  | [] => ([], [])
  | mh :: rows =>
    let idx_sku := _pick_index_by_candidates mh ["sku", "seller_sku"]
    let idx_brandn := _pick_index_by_candidates mh ["brand", "brand name"]
    let idx_wgt := _pick_index_by_candidates mh ["weight", "package weight"]
    if 0 ≤ idx_sku then
      rows.foldl (fun maps row =>
        let sku := pyStrip (cellI row idx_sku)
        if sku = "" then maps
        else
          ((if 0 ≤ idx_wgt ∧ idx_wgt < (row.length : Int) then
              dictInsert maps.1 sku (pyStrip (cellI row idx_wgt))
            else maps.1),
           (if 0 ≤ idx_brandn ∧ idx_brandn < (row.length : Int) then
              dictInsert maps.2 sku (pyStrip (cellI row idx_brandn))
            else maps.2))) ([], [])
    else ([], [])

/-- The `brand_name_to_code` dict built from the reference `Brand` sheet
(name in column B, code in column C, keyed by whitespace-normalized
lowercase name). -/
def brandMap (brand_vals : Matrix) : List (String × String) :=
  match brand_vals with
  | [] => []
  | h :: rows =>
    if h.length < 3 then []
    else
      rows.foldl (fun m row =>
        if row.length < 3 then m
        else
          let bname := pyStrip (cellAt row 1)
          if bname = "" then m
          else dictInsert m (wsNorm bname) (pyStrip (cellAt row 2))) []

/-- Step-4 loop state: the column indices of the current header block. -/
structure S4 where
  seen : Bool
  iStock : Int
  iDtos : Int
  iWeight : Int
  iBrand : Int
  iSku : Int
deriving DecidableEq

def s4Init : S4 := ⟨false, -1, -1, -1, -1, -1⟩

/-- State update at an embedded header row (`current_headers = row[1:]`). -/
def s4Head (row : List String) : S4 :=
  let keys := (row.drop 1).map header_key
  ⟨true, _find_col_index keys "stock" [], _find_col_index keys "daystoship" [],
    _find_col_index keys "weight" [], _find_col_index keys "brand" [],
    _find_col_index keys "sku" []⟩

/-- `sku_val` of a data row. -/
def s4SkuVal (st : S4) (row : List String) : String :=
  if 0 ≤ st.iSku then pyStrip (cellAt row (st.iSku.toNat + 1)) else ""

/-- The cells and failure rows contributed by one data row of step 4. -/
def step4Row (wmap nmap cmap : List (String × String)) (stockS dtosS : String)
    (st : S4) (r0 : Nat) (row : List String) : List Cell × Matrix :=
  let pid := pyStrip (cellAt row 0)
  let sku_val := s4SkuVal st row
  let stockCells : List Cell :=
    if 0 ≤ st.iStock then
      if cellAt row (st.iStock.toNat + 1) ≠ stockS then
        [⟨r0 + 1, st.iStock.toNat + 2, stockS⟩]
      else []
    else []
  let dtosCells : List Cell :=
    if 0 ≤ st.iDtos then
      if cellAt row (st.iDtos.toNat + 1) ≠ dtosS then
        [⟨r0 + 1, st.iDtos.toNat + 2, dtosS⟩]
      else []
    else []
  let weightOut : List Cell × Matrix :=
    if 0 ≤ st.iWeight ∧ sku_val ≠ "" then
      match dictGet wmap sku_val with
      | some w =>
        if w ≠ "" then
          (if cellAt row (st.iWeight.toNat + 1) ≠ w then
            [⟨r0 + 1, st.iWeight.toNat + 2, w⟩] else [], [])
        else ([], [[pid, "", "", "WEIGHT_MAP_MISSING", "sku=" ++ sku_val]])
      | none => ([], [[pid, "", "", "WEIGHT_MAP_MISSING", "sku=" ++ sku_val]])
    else ([], [])
  let brandOut : List Cell × Matrix :=
    if 0 ≤ st.iBrand ∧ sku_val ≠ "" then
      let bnameOpt := dictGet nmap sku_val
      let bcodeOpt : Option String :=
        match bnameOpt with
        | some b => if b ≠ "" then dictGet cmap (wsNorm b) else none
        | none => none
      let new_bcode : String :=
        match bcodeOpt with
        | some c => if c ≠ "" then c else "0"
        | none => "0"
      ((if cellAt row (st.iBrand.toNat + 1) ≠ new_bcode then
          [⟨r0 + 1, st.iBrand.toNat + 2, new_bcode⟩] else []),
       (match bnameOpt with
        | some b =>
          if b ≠ "" ∧ (bcodeOpt = none ∨ bcodeOpt = some "") then
            [[pid, "", "", "BRAND_CODE_NOT_FOUND", "brand_name=" ++ b]]
          else []
        | none => []))
    else ([], [])
  (stockCells ++ dtosCells ++ weightOut.1 ++ brandOut.1, weightOut.2 ++ brandOut.2)

/-- The step-4 loop over TEM_OUTPUT rows. -/
def step4Go (wmap nmap cmap : List (String × String)) (stockS dtosS : String) :
    Nat → S4 → List (List String) → List Cell × Matrix
  | _, _, [] => ([], [])
  | r0, st, row :: rest =>
    if isHdrRow row then step4Go wmap nmap cmap stockS dtosS (r0 + 1) (s4Head row) rest
    else if st.seen then
      let c := step4Row wmap nmap cmap stockS dtosS st r0 row
      let r := step4Go wmap nmap cmap stockS dtosS (r0 + 1) st rest
      (c.1 ++ r.1, c.2 ++ r.2)
    else step4Go wmap nmap cmap stockS dtosS (r0 + 1) st rest

/-- `run_step_4`: returns `(cells_to_update, failures)`. -/
def runStep4 (tem margin brand : Matrix) (stockV dtosV : Int) :
    List Cell × Matrix :=
  let maps := marginMaps margin
  step4Go maps.1 maps.2 (brandMap brand) (toString stockV) (toString dtosV) 0 s4Init tem

/-- The header state reached after a list of rows. -/
def s4After (st : S4) : List (List String) → S4
  | [] => st
  | row :: rest => s4After (if isHdrRow row then s4Head row else st) rest

theorem step4Go_append (wmap nmap cmap : List (String × String))
    (stockS dtosS : String) :
    ∀ (l1 l2 : List (List String)) (r0 : Nat) (st : S4),
      step4Go wmap nmap cmap stockS dtosS r0 st (l1 ++ l2) =
        ((step4Go wmap nmap cmap stockS dtosS r0 st l1).1 ++
          (step4Go wmap nmap cmap stockS dtosS (r0 + l1.length) (s4After st l1) l2).1,
         (step4Go wmap nmap cmap stockS dtosS r0 st l1).2 ++
          (step4Go wmap nmap cmap stockS dtosS (r0 + l1.length) (s4After st l1) l2).2) := by
  intro l1
  induction l1 with
  | nil =>
    intro l2 r0 st
    simp [step4Go, s4After]
  | cons row rest ih =>
    intro l2 r0 st
    rw [List.cons_append, step4Go, step4Go]
    by_cases hh : isHdrRow row
    · rw [if_pos hh, if_pos hh, ih]
      simp [s4After, hh, Nat.add_assoc, Nat.add_comm 1 rest.length]
    · rw [if_neg hh, if_neg hh]
      by_cases hs : st.seen
      · simp only [if_pos hs, ih]
        simp [s4After, hh, List.append_assoc, Nat.add_assoc, Nat.add_comm 1 rest.length]
      · simp only [if_neg hs, ih]
        simp [s4After, hh, Nat.add_assoc, Nat.add_comm 1 rest.length]

theorem take_length_of_get? {α : Type} {l : List α} {n : Nat} {a : α}
    (h : l.get? n = some a) : (l.take n).length = n := by
  rcases List.get?_eq_some.mp h with ⟨hlt, _⟩
  simp [List.length_take]
  omega

theorem decomp_of_get? {α : Type} {l : List α} {n : Nat} {a : α}
    (h : l.get? n = some a) : l = l.take n ++ a :: l.drop (n + 1) := by
  rcases List.get?_eq_some.mp h with ⟨hlt, hget⟩
  conv_lhs => rw [← List.take_append_drop n l]
  rw [List.drop_eq_get_cons hlt, hget]

theorem step4Go_mem_middle (wmap nmap cmap : List (String × String))
    (stockS dtosS : String) (l1 l2 : List (List String)) (row : List String)
    (st : S4) (hhdr : isHdrRow row = false)
    (hst : s4After s4Init l1 = st) (hseen : st.seen = true) :
    (∀ x : Cell, x ∈ (step4Row wmap nmap cmap stockS dtosS st l1.length row).1 →
      x ∈ (step4Go wmap nmap cmap stockS dtosS 0 s4Init (l1 ++ row :: l2)).1) ∧
    (∀ f : List String, f ∈ (step4Row wmap nmap cmap stockS dtosS st l1.length row).2 →
      f ∈ (step4Go wmap nmap cmap stockS dtosS 0 s4Init (l1 ++ row :: l2)).2) := by
  have hnh : ¬(isHdrRow row = true) := by
    rw [hhdr]
    exact Bool.false_ne_true
  have hgo := step4Go_append wmap nmap cmap stockS dtosS l1 (row :: l2) 0 s4Init
  rw [hst, Nat.zero_add] at hgo
  constructor
  · intro x hx
    rw [hgo]
    apply List.mem_append_right
    rw [step4Go, if_neg hnh, if_pos hseen]
    exact List.mem_append_left _ hx
  · intro f hf
    rw [hgo]
    apply List.mem_append_right
    rw [step4Go, if_neg hnh, if_pos hseen]
    exact List.mem_append_left _ hf

/-- Claim C2, amended: for every data row processed by step 4, weight and
brand-code are filled by joining the row SKU to the MARGIN / Brand lookup
tables, and a row whose SKU has no weight mapping (resp. a brand name with
no brand code) is appended to the Failures rows; but the stock and
days-to-ship columns are filled with the fixed configured values for every
processed row, independently of the SKU and of the lookup tables. -/
theorem step4_spec (tem margin brand : Matrix) (sV dV : Int) {r0 : Nat}
    {row : List String} {st : S4}
    (hrow : tem.get? r0 = some row) (hhdr : isHdrRow row = false)
    (hst : s4After s4Init (tem.take r0) = st) (hseen : st.seen = true) :
    (0 ≤ st.iStock → cellAt row (st.iStock.toNat + 1) ≠ toString sV →
      (⟨r0 + 1, st.iStock.toNat + 2, toString sV⟩ : Cell) ∈
        (runStep4 tem margin brand sV dV).1) ∧
    (0 ≤ st.iDtos → cellAt row (st.iDtos.toNat + 1) ≠ toString dV →
      (⟨r0 + 1, st.iDtos.toNat + 2, toString dV⟩ : Cell) ∈
        (runStep4 tem margin brand sV dV).1) ∧
    (∀ w, 0 ≤ st.iWeight → s4SkuVal st row ≠ "" →
      dictGet (marginMaps margin).1 (s4SkuVal st row) = some w → w ≠ "" →
      cellAt row (st.iWeight.toNat + 1) ≠ w →
      (⟨r0 + 1, st.iWeight.toNat + 2, w⟩ : Cell) ∈
        (runStep4 tem margin brand sV dV).1) ∧
    (0 ≤ st.iWeight → s4SkuVal st row ≠ "" →
      (dictGet (marginMaps margin).1 (s4SkuVal st row) = none ∨
        dictGet (marginMaps margin).1 (s4SkuVal st row) = some "") →
      [pyStrip (cellAt row 0), "", "", "WEIGHT_MAP_MISSING",
        "sku=" ++ s4SkuVal st row] ∈ (runStep4 tem margin brand sV dV).2) ∧
    (∀ b bc, 0 ≤ st.iBrand → s4SkuVal st row ≠ "" →
      dictGet (marginMaps margin).2 (s4SkuVal st row) = some b → b ≠ "" →
      dictGet (brandMap brand) (wsNorm b) = some bc → bc ≠ "" →
      cellAt row (st.iBrand.toNat + 1) ≠ bc →
      (⟨r0 + 1, st.iBrand.toNat + 2, bc⟩ : Cell) ∈
        (runStep4 tem margin brand sV dV).1) ∧
    (∀ b, 0 ≤ st.iBrand → s4SkuVal st row ≠ "" →
      dictGet (marginMaps margin).2 (s4SkuVal st row) = some b → b ≠ "" →
      (dictGet (brandMap brand) (wsNorm b) = none ∨
        dictGet (brandMap brand) (wsNorm b) = some "") →
      [pyStrip (cellAt row 0), "", "", "BRAND_CODE_NOT_FOUND",
        "brand_name=" ++ b] ∈ (runStep4 tem margin brand sV dV).2) := by
  have hlen := take_length_of_get? hrow
  have hdec := decomp_of_get? hrow
  have hmm := step4Go_mem_middle (marginMaps margin).1 (marginMaps margin).2
    (brandMap brand) (toString sV) (toString dV)
    (tem.take r0) (tem.drop (r0 + 1)) row st hhdr hst hseen
  rw [hlen, ← hdec] at hmm
  have hmem1 : ∀ x : Cell,
      x ∈ (step4Row (marginMaps margin).1 (marginMaps margin).2 (brandMap brand)
        (toString sV) (toString dV) st r0 row).1 →
      x ∈ (runStep4 tem margin brand sV dV).1 := by
    intro x hx
    simp only [runStep4]
    exact hmm.1 x hx
  have hmem2 : ∀ f : List String,
      f ∈ (step4Row (marginMaps margin).1 (marginMaps margin).2 (brandMap brand)
        (toString sV) (toString dV) st r0 row).2 →
      f ∈ (runStep4 tem margin brand sV dV).2 := by
    intro f hf
    simp only [runStep4]
    exact hmm.2 f hf
  refine ⟨?_, ?_, ?_, ?_, ?_, ?_⟩
  · intro h1 h2
    apply hmem1
    simp [step4Row, h1, h2]
  · intro h1 h2
    apply hmem1
    simp [step4Row, h1, h2]
  · intro w h1 h2 h3 h4 h5
    apply hmem1
    simp [step4Row, h1, h2, h3, h4, h5]
  · intro h1 h2 h3
    apply hmem2
    rcases h3 with h3 | h3 <;> simp [step4Row, h1, h2, h3]
  · intro b bc h1 h2 h3 h4 h5 h6 h7
    apply hmem1
    simp [step4Row, h1, h2, h3, h4, h5, h6, h7]
  · intro b h1 h2 h3 h4 h5
    apply hmem2
    rcases h5 with h5 | h5 <;> simp [step4Row, h1, h2, h3, h4, h5]

/-- Claim C2, counterexample: with an EMPTY margin table and empty brand
table (so no SKU can join to anything), step 4 still fills the stock and
days-to-ship cells of the data row with the fixed values; they are not
obtained by joining the SKU to the lookup tables. -/
theorem step4_stock_filled_without_join :
    (runStep4 [["", "Category", "Stock", "Days to ship"],
               ["P1", "Beauty/x", "", ""]] [] [] 1000 1).1 =
      [⟨2, 3, "1000"⟩, ⟨2, 4, "1"⟩] ∧
    (runStep4 [["", "Category", "Stock", "Days to ship"],
               ["P1", "Beauty/x", "", ""]] [] [] 1000 1).2 = [] := by
  constructor <;> rfl

/-- Witness for the amended C2 at a concrete input: a SKU present in MARGIN
gets its weight written, and one with a brand name missing from the Brand
table is logged to Failures. -/
theorem step4_spec_witness :
    ((⟨2, 3, "1000"⟩ : Cell) ∈
      (runStep4 [["", "Category", "Stock", "Weight", "SKU"],
                 ["P1", "Beauty/x", "", "", "S1"]]
        [["SKU", "Brand", "", "Weight"], ["S1", "NoSuchBrand", "", "2.5"]]
        [] 1000 1).1) ∧
    ((⟨2, 4, "2.5"⟩ : Cell) ∈
      (runStep4 [["", "Category", "Stock", "Weight", "SKU"],
                 ["P1", "Beauty/x", "", "", "S1"]]
        [["SKU", "Brand", "", "Weight"], ["S1", "NoSuchBrand", "", "2.5"]]
        [] 1000 1).1) := by
  have h := @step4_spec
    [["", "Category", "Stock", "Weight", "SKU"], ["P1", "Beauty/x", "", "", "S1"]]
    [["SKU", "Brand", "", "Weight"], ["S1", "NoSuchBrand", "", "2.5"]]
    [] 1000 1 1
    ["P1", "Beauty/x", "", "", "S1"]
    (s4After s4Init [["", "Category", "Stock", "Weight", "SKU"]])
    rfl (by decide) rfl (by decide)
  exact ⟨h.1 (by decide) (by decide),
    h.2.2.1 "2.5" (by decide) (by decide) (by decide) (by decide) (by decide)⟩

/-! ## STEP 6: cover image URLs (run_step_6) -/

/-- Step-6 loop state. -/
structure S6 where
  seen : Bool
  iCover : Int
  iSku : Int
  iPsku : Int
deriving DecidableEq

def s6Init : S6 := ⟨false, -1, -1, -1⟩

def s6Head (row : List String) : S6 :=
  let keys := (row.drop 1).map header_key
  ⟨true, _find_col_index keys "coverimage" [], _find_col_index keys "sku" [],
    _find_col_index keys "parentsku" []⟩

/-- `if not host.endswith("/"): host += "/"`. -/
def ensureSlash (host : String) : String :=
  if host.data.getLast? = some '/' then host else host ++ "/"

def s6Psku (st : S6) (row : List String) : String :=
  pyStrip (if st.iPsku ≠ -1 ∧ st.iPsku + 1 < (row.length : Int) then
    cellAt row (st.iPsku + 1).toNat else "")

def s6Sku (st : S6) (row : List String) : String :=
  pyStrip (if st.iSku ≠ -1 ∧ st.iSku + 1 < (row.length : Int) then
    cellAt row (st.iSku + 1).toNat else "")

/-- `sku_for_url = psku_val if psku_val else sku_val`. -/
def s6SkuForUrl (st : S6) (row : List String) : String :=
  if s6Psku st row ≠ "" then s6Psku st row else s6Sku st row

/-- The cell (if any) contributed by one non-header row of step 6. -/
def step6Row (hostS shop : String) (st : S6) (r0 : Nat) (row : List String) :
    List Cell :=
  if st.seen ∧ st.iCover ≠ -1 then
    if s6SkuForUrl st row ≠ "" then
      [⟨r0 + 1, (st.iCover + 2).toNat,
        hostS ++ s6SkuForUrl st row ++ "_C_" ++ shop ++ ".jpg"⟩]
    else []
  else []

def step6Go (hostS shop : String) : Nat → S6 → List (List String) → List Cell
  | _, _, [] => []
  | r0, st, row :: rest =>
    if isHdrRow row then step6Go hostS shop (r0 + 1) (s6Head row) rest
    else step6Row hostS shop st r0 row ++ step6Go hostS shop (r0 + 1) st rest

/-- `run_step_6`: the list of cover-image cell updates. -/
def runStep6 (tem : Matrix) (host shop : String) : List Cell :=
  step6Go (ensureSlash host) shop 0 s6Init tem

def s6After (st : S6) : List (List String) → S6
  | [] => st
  | row :: rest => s6After (if isHdrRow row then s6Head row else st) rest

theorem step6Go_append (hostS shop : String) :
    ∀ (l1 l2 : List (List String)) (r0 : Nat) (st : S6),
      step6Go hostS shop r0 st (l1 ++ l2) =
        step6Go hostS shop r0 st l1 ++
          step6Go hostS shop (r0 + l1.length) (s6After st l1) l2 := by
  intro l1
  induction l1 with
  | nil =>
    intro l2 r0 st
    simp [step6Go, s6After]
  | cons row rest ih =>
    intro l2 r0 st
    rw [List.cons_append, step6Go, step6Go]
    by_cases hh : isHdrRow row
    · rw [if_pos hh, if_pos hh, ih]
      simp [s6After, hh, Nat.add_assoc, Nat.add_comm 1 rest.length]
    · rw [if_neg hh, if_neg hh, ih]
      simp [s6After, hh, Nat.add_assoc, Nat.add_comm 1 rest.length]

theorem step6Go_row_bound (hostS shop : String) :
    ∀ (l : List (List String)) (r0 : Nat) (st : S6) (u : Cell),
      u ∈ step6Go hostS shop r0 st l → r0 + 1 ≤ u.row ∧ u.row ≤ r0 + l.length := by
  intro l
  induction l with
  | nil =>
    intro r0 st u hu
    simp [step6Go] at hu
  | cons row rest ih =>
    intro r0 st u hu
    rw [step6Go] at hu
    by_cases hh : isHdrRow row
    · rw [if_pos hh] at hu
      have := ih (r0 + 1) (s6Head row) u hu
      simp only [List.length_cons]
      omega
    · rw [if_neg hh] at hu
      rcases List.mem_append.mp hu with hu | hu
      · have : u.row = r0 + 1 := by
          unfold step6Row at hu
          rcases Decidable.em (st.seen = true ∧ st.iCover ≠ -1) with hc | hc
          · rw [if_pos hc] at hu
            rcases Decidable.em (s6SkuForUrl st row ≠ "") with hs | hs
            · rw [if_pos hs] at hu
              rw [List.mem_singleton.mp hu]
            · rw [if_neg hs] at hu
              exact absurd hu (List.not_mem_nil u)
          · rw [if_neg hc] at hu
            exact absurd hu (List.not_mem_nil u)
        simp only [List.length_cons]
        omega
      · have := ih (r0 + 1) st u hu
        simp only [List.length_cons]
        omega

/-- Claim C6: for every data row of TEM_OUTPUT under a header that resolves
the cover-image column, step 6 writes into that column the URL
`host-with-slash ++ (parent SKU if non-empty else SKU) ++ "_C_" ++ shop ++
".jpg"` exactly when the row has a non-empty (parent-)SKU; a row with
neither receives no update. -/
theorem step6_spec (tem : Matrix) (host shop : String) {r0 : Nat}
    {row : List String} {st : S6}
    (hrow : tem.get? r0 = some row) (hhdr : isHdrRow row = false)
    (hst : s6After s6Init (tem.take r0) = st) (hseen : st.seen = true)
    (hcov : st.iCover ≠ -1) :
    (s6SkuForUrl st row ≠ "" →
      (⟨r0 + 1, (st.iCover + 2).toNat,
        ensureSlash host ++ s6SkuForUrl st row ++ "_C_" ++ shop ++ ".jpg"⟩ : Cell) ∈
        runStep6 tem host shop) ∧
    (s6SkuForUrl st row = "" →
      ∀ u ∈ runStep6 tem host shop, u.row ≠ r0 + 1) := by
  have hlen := take_length_of_get? hrow
  have hdec := decomp_of_get? hrow
  have hnh : ¬(isHdrRow row = true) := by
    rw [hhdr]
    exact Bool.false_ne_true
  have hgo := step6Go_append (ensureSlash host) shop (tem.take r0)
    (row :: tem.drop (r0 + 1)) 0 s6Init
  rw [hst, Nat.zero_add, hlen, ← hdec] at hgo
  have hrun : runStep6 tem host shop =
      step6Go (ensureSlash host) shop 0 s6Init (tem.take r0) ++
        (step6Row (ensureSlash host) shop st r0 row ++
          step6Go (ensureSlash host) shop (r0 + 1) st (tem.drop (r0 + 1))) := by
    rw [runStep6, hgo, step6Go, if_neg hnh]
  constructor
  · intro hs
    rw [hrun]
    apply List.mem_append_right
    apply List.mem_append_left
    rw [step6Row, if_pos ⟨hseen, hcov⟩, if_pos hs]
    exact List.mem_singleton.mpr rfl
  · intro hs u hu hru
    rw [hrun] at hu
    rcases List.mem_append.mp hu with hu | hu
    · have hb := step6Go_row_bound (ensureSlash host) shop (tem.take r0) 0 s6Init u hu
      rw [hlen] at hb
      omega
    · rcases List.mem_append.mp hu with hu | hu
      · rw [step6Row, if_pos ⟨hseen, hcov⟩, if_neg (by simp [hs])] at hu
        exact absurd hu (List.not_mem_nil u)
      · have hb := step6Go_row_bound (ensureSlash host) shop (tem.drop (r0 + 1))
          (r0 + 1) st u hu
        omega

/-- Witness for C6 at a concrete input: the parent SKU is preferred and the
URL is the deterministic concatenation. -/
theorem step6_spec_witness :
    (⟨2, 3, "h/PS1_C_TH.jpg"⟩ : Cell) ∈
      runStep6 [["", "Category", "Cover image", "SKU", "Parent SKU"],
                ["P1", "c/x", "", "S1", "PS1"]] "h" "TH" := by
  have h := @step6_spec
    [["", "Category", "Cover image", "SKU", "Parent SKU"],
     ["P1", "c/x", "", "S1", "PS1"]] "h" "TH" 1
    ["P1", "c/x", "", "S1", "PS1"]
    (s6After s6Init [["", "Category", "Cover image", "SKU", "Parent SKU"]])
    rfl (by decide) rfl (by decide) (by decide)
  exact h.1 (by decide)

/-! ## STEP 5: description / variation integration / price (run_step_5) -/

/-- Step-5 loop state. -/
structure S5 where
  seen : Bool
  iDesc : Int
  iVar : Int
  iPrice : Int
  iSku : Int
deriving DecidableEq

def s5Init : S5 := ⟨false, -1, -1, -1, -1⟩

def s5Head (row : List String) : S5 :=
  let keys := (row.drop 1).map header_key
  ⟨true, _find_col_index keys "productdescription" [],
    _find_col_index keys "variationintegration" [],
    _find_col_index keys "globalskuprice" [], _find_col_index keys "sku" []⟩

def s5After (st : S5) : List (List String) → S5
  | [] => st
  | row :: rest => s5After (if isHdrRow row then s5Head row else st) rest

/-- `pid_to_desc`: first column (stripped) to column D, over BASIC data rows. -/
def pidToDesc (basic : Matrix) : List (String × String) :=
  (basic.drop 1).foldl (fun m row =>
    if row ≠ [] ∧ pyStrip (cellAt row 0) ≠ "" then
      dictInsert m (pyStrip (cellAt row 0)) (cellAt row 3)
    else m) []

/-- `sku_to_price`: first column (stripped) to column E, over MARGIN data rows. -/
def skuToPrice (margin : Matrix) : List (String × String) :=
  (margin.drop 1).foldl (fun m row =>
    if row ≠ [] ∧ pyStrip (cellAt row 0) ≠ "" then
      dictInsert m (pyStrip (cellAt row 0)) (cellAt row 4)
    else m) []

/-- `defaultdict(list)` append `g[k].append(r)`. -/
def dictAppend : List (String × List Nat) → String → Nat → List (String × List Nat)
  | [], k, r => [(k, [r])]
  | (k', l) :: rest, k, r =>
    if k' = k then (k', l ++ [r]) :: rest else (k', l) :: dictAppend rest k r

/-- The step-5 loop: description/price cell updates, the `pid_groups` dict
and the final header state. -/
def step5Go (dmap pmap : List (String × String)) :
    Nat → S5 → List (String × List Nat) → List (List String) →
      List Cell × List (String × List Nat) × S5
  | _, st, g, [] => ([], g, st)
  | r0, st, g, row :: rest =>
    if isHdrRow row then step5Go dmap pmap (r0 + 1) (s5Head row) g rest
    else if st.seen then
      let pid := pyStrip (cellAt row 0)
      if pid = "" then step5Go dmap pmap (r0 + 1) st g rest
      else
        let descCells : List Cell :=
          if st.iDesc ≠ -1 then
            [⟨r0 + 1, (st.iDesc + 2).toNat, (dictGet dmap pid).getD ""⟩]
          else []
        let priceCells : List Cell :=
          if st.iPrice ≠ -1 ∧ st.iSku ≠ -1 then
            let sku_val := pyStrip (if st.iSku + 1 < (row.length : Int) then
              cellAt row (st.iSku + 1).toNat else "")
            if sku_val ≠ "" then
              [⟨r0 + 1, (st.iPrice + 2).toNat, (dictGet pmap sku_val).getD ""⟩]
            else []
          else []
        let res := step5Go dmap pmap (r0 + 1) st (dictAppend g pid (r0 + 1)) rest
        (descCells ++ priceCells ++ res.1, res.2)
    else step5Go dmap pmap (r0 + 1) st g rest

/-- The variation-integration phase appended after the loop. -/
def varCells (iVar : Int) (g : List (String × List Nat)) : List Cell :=
  if iVar ≠ -1 then
    g.bind (fun p =>
      if 1 < p.2.length then
        p.2.map (fun r => ⟨r, (iVar + 2).toNat, "V" ++ p.1⟩)
      else [])
  else []

/-- The variation-code cells produced by `run_step_5`. -/
def step5VarCells (tem basic margin : Matrix) : List Cell :=
  let res := step5Go (pidToDesc basic) (skuToPrice margin) 0 s5Init [] tem
  varCells res.2.2.iVar res.2.1

/-- `run_step_5`: all cell updates (loop phase then variation phase). -/
def runStep5 (tem basic margin : Matrix) : List Cell :=
  (step5Go (pidToDesc basic) (skuToPrice margin) 0 s5Init [] tem).1 ++
    step5VarCells tem basic margin

/-- The 1-based row numbers of the data rows of `tem` carrying `pid`
(rows after the first embedded header, with a non-empty PID equal to `pid`). -/
def pidRowsGo (pid : String) : Nat → Bool → List (List String) → List Nat
  | _, _, [] => []
  | r0, seen, row :: rest =>
    if isHdrRow row then pidRowsGo pid (r0 + 1) true rest
    else if seen ∧ pyStrip (cellAt row 0) = pid ∧ pid ≠ "" then
      (r0 + 1) :: pidRowsGo pid (r0 + 1) seen rest
    else pidRowsGo pid (r0 + 1) seen rest

def step5PidRows (tem : Matrix) (pid : String) : List Nat :=
  pidRowsGo pid 0 false tem

theorem step5Go_state (dmap pmap : List (String × String)) :
    ∀ (rows : List (List String)) (r0 : Nat) (st : S5) (g : List (String × List Nat)),
      (step5Go dmap pmap r0 st g rows).2.2 = s5After st rows := by
  intro rows
  induction rows with
  | nil =>
    intro r0 st g
    simp [step5Go, s5After]
  | cons row rest ih =>
    intro r0 st g
    rw [step5Go, s5After]
    by_cases hh : isHdrRow row
    · rw [if_pos hh, if_pos hh, ih]
    · rw [if_neg hh, if_neg hh]
      by_cases hs : st.seen
      · rw [if_pos hs]
        by_cases hp : pyStrip (cellAt row 0) = ""
        · rw [if_pos hp, ih]
        · rw [if_neg hp]
          simp only
          rw [ih]
      · rw [if_neg hs, ih]

/-- The groups part of the step-5 loop, standalone. -/
def groupsGo : Nat → Bool → List (String × List Nat) → List (List String) →
    List (String × List Nat)
  | _, _, g, [] => g
  | r0, seen, g, row :: rest =>
    if isHdrRow row then groupsGo (r0 + 1) true g rest
    else if seen then
      if pyStrip (cellAt row 0) = "" then groupsGo (r0 + 1) seen g rest
      else groupsGo (r0 + 1) seen (dictAppend g (pyStrip (cellAt row 0)) (r0 + 1)) rest
    else groupsGo (r0 + 1) seen g rest

theorem step5Go_groups (dmap pmap : List (String × String)) :
    ∀ (rows : List (List String)) (r0 : Nat) (st : S5) (g : List (String × List Nat)),
      (step5Go dmap pmap r0 st g rows).2.1 = groupsGo r0 st.seen g rows := by
  intro rows
  induction rows with
  | nil =>
    intro r0 st g
    simp [step5Go, groupsGo]
  | cons row rest ih =>
    intro r0 st g
    rw [step5Go, groupsGo]
    by_cases hh : isHdrRow row
    · rw [if_pos hh, if_pos hh, ih]
      rfl
    · rw [if_neg hh, if_neg hh]
      by_cases hs : st.seen = true
      · rw [if_pos hs, hs, if_pos rfl]
        by_cases hp : pyStrip (cellAt row 0) = ""
        · rw [if_pos hp, if_pos hp, ih, hs]
        · rw [if_neg hp, if_neg hp]
          simp only
          rw [ih, hs]
      · have hs' : st.seen = false := by simpa using hs
        rw [if_neg hs, hs', if_neg Bool.false_ne_true, ih, hs']

theorem dictGet_dictAppend (g : List (String × List Nat)) (k : String) (r : Nat)
    (pid : String) :
    dictGet (dictAppend g k r) pid =
      if pid = k then some (((dictGet g k).getD []) ++ [r]) else dictGet g pid := by
  induction g with
  | nil =>
    by_cases h : pid = k
    · subst h
      simp [dictAppend, dictGet]
    · simp [dictAppend, dictGet, h, Ne.symm h]
  | cons p rest ih =>
    rcases p with ⟨k', l⟩
    by_cases h1 : k' = k
    · subst h1
      by_cases h2 : pid = k'
      · subst h2
        simp [dictAppend, dictGet]
      · simp [dictAppend, dictGet, h2, Ne.symm h2]
    · by_cases h2 : k' = pid
      · subst h2
        simp [dictAppend, dictGet, h1]
      · simp [dictAppend, dictGet, h1, h2, ih]

theorem groupsGo_get (pid : String) :
    ∀ (rows : List (List String)) (r0 : Nat) (seen : Bool)
      (g : List (String × List Nat)),
      dictGet (groupsGo r0 seen g rows) pid =
        match dictGet g pid with
        | some l0 => some (l0 ++ pidRowsGo pid r0 seen rows)
        | none =>
          if pidRowsGo pid r0 seen rows = [] then none
          else some (pidRowsGo pid r0 seen rows) := by
  intro rows
  induction rows with
  | nil =>
    intro r0 seen g
    rw [groupsGo, pidRowsGo]
    rcases h : dictGet g pid with _ | l0
    · simp
    · simp
  | cons row rest ih =>
    intro r0 seen g
    rw [groupsGo, pidRowsGo]
    by_cases hh : isHdrRow row
    · rw [if_pos hh, if_pos hh, ih]
    · rw [if_neg hh, if_neg hh]
      by_cases hs : seen = true
      · subst hs
        rw [if_pos rfl]
        by_cases hp : pyStrip (cellAt row 0) = ""
        · rw [if_pos hp, ih]
          have hcond : ¬(true = true ∧ pyStrip (cellAt row 0) = pid ∧ pid ≠ "") := by
            rintro ⟨-, h1, h2⟩
            exact h2 (by rw [← h1, hp])
          rw [if_neg hcond]
        · rw [if_neg hp, ih, dictGet_dictAppend]
          by_cases he : pid = pyStrip (cellAt row 0)
          · rw [if_pos he]
            have hpid : pid ≠ "" := by
              intro hcon
              exact hp (by rw [← he]; exact hcon)
            have hcond : (true = true ∧ pyStrip (cellAt row 0) = pid ∧ pid ≠ "") :=
              ⟨rfl, he.symm, hpid⟩
            rw [if_pos hcond]
            rcases hg : dictGet g pid with _ | l0
            · rw [← he, hg]
              simp
            · rw [← he, hg]
              simp
          · rw [if_neg he]
            have hcond : ¬(true = true ∧ pyStrip (cellAt row 0) = pid ∧ pid ≠ "") := by
              rintro ⟨-, h1, -⟩
              exact he h1.symm
            rw [if_neg hcond]
      · have hs' : seen = false := by simpa using hs
        subst hs'
        rw [if_neg Bool.false_ne_true, ih]
        have hcond : ¬(false = true ∧ pyStrip (cellAt row 0) = pid ∧ pid ≠ "") := by
          rintro ⟨hcon, -, -⟩
          exact Bool.false_ne_true hcon
        rw [if_neg hcond]

theorem dictGet_mem {β : Type} {g : List (String × β)} {k : String} {v : β}
    (h : dictGet g k = some v) : (k, v) ∈ g := by
  induction g with
  | nil => exact absurd h (by rw [dictGet]; exact Option.noConfusion)
  | cons p rest ih =>
    rcases p with ⟨k', v'⟩
    rw [dictGet] at h
    by_cases he : k' = k
    · rw [if_pos he] at h
      rcases Option.some_inj.mp h with rfl
      rw [he]
      exact List.mem_cons_self _ _
    · rw [if_neg he] at h
      exact List.mem_cons_of_mem _ (ih h)

theorem dictGet_of_mem {β : Type} {g : List (String × β)} {k : String} {v : β}
    (hnd : (g.map Prod.fst).Nodup) (hm : (k, v) ∈ g) : dictGet g k = some v := by
  induction g with
  | nil => exact absurd hm (List.not_mem_nil _)
  | cons p rest ih =>
    rcases p with ⟨k', v'⟩
    rw [List.map_cons, List.nodup_cons] at hnd
    rcases List.mem_cons.mp hm with heq | hm'
    · rcases Prod.mk.injEq .. ▸ heq with ⟨rfl, rfl⟩
      rw [dictGet, if_pos rfl]
    · rw [dictGet]
      by_cases he : k' = k
      · exfalso
        apply hnd.1
        rw [he]
        exact List.mem_map.mpr ⟨(k, v), hm', rfl⟩
      · rw [if_neg he]
        exact ih hnd.2 hm'

theorem dictAppend_keys (g : List (String × List Nat)) (k : String) (r : Nat) :
    (dictAppend g k r).map Prod.fst =
      if k ∈ g.map Prod.fst then g.map Prod.fst else g.map Prod.fst ++ [k] := by
  induction g with
  | nil => simp [dictAppend]
  | cons p rest ih =>
    rcases p with ⟨k', l⟩
    rw [dictAppend]
    by_cases h1 : k' = k
    · subst h1
      simp [List.mem_cons]
    · rw [if_neg h1, List.map_cons, List.map_cons, ih]
      by_cases h2 : k ∈ rest.map Prod.fst
      · rw [if_pos h2, if_pos (by simp [List.mem_cons, h2])]
      · rw [if_neg h2, if_neg (by
          simp only [List.mem_cons]
          rintro (hc | hc)
          · exact h1 hc.symm
          · exact h2 hc)]
        rfl

theorem dictAppend_nodup {g : List (String × List Nat)} {k : String} {r : Nat}
    (h : (g.map Prod.fst).Nodup) : ((dictAppend g k r).map Prod.fst).Nodup := by
  rw [dictAppend_keys]
  by_cases hm : k ∈ g.map Prod.fst
  · rw [if_pos hm]
    exact h
  · rw [if_neg hm]
    exact h.append (List.nodup_singleton k)
      (fun a ha hak => hm ((List.mem_singleton.mp hak) ▸ ha))

theorem groupsGo_nodup :
    ∀ (rows : List (List String)) (r0 : Nat) (seen : Bool)
      (g : List (String × List Nat)),
      (g.map Prod.fst).Nodup → ((groupsGo r0 seen g rows).map Prod.fst).Nodup := by
  intro rows
  induction rows with
  | nil =>
    intro r0 seen g h
    rw [groupsGo]
    exact h
  | cons row rest ih =>
    intro r0 seen g h
    rw [groupsGo]
    by_cases hh : isHdrRow row
    · rw [if_pos hh]
      exact ih _ _ _ h
    · rw [if_neg hh]
      by_cases hs : seen = true
      · rw [if_pos hs]
        by_cases hp : pyStrip (cellAt row 0) = ""
        · rw [if_pos hp]
          exact ih _ _ _ h
        · rw [if_neg hp]
          exact ih _ _ _ (dictAppend_nodup h)
      · rw [if_neg hs]
        exact ih _ _ _ h

theorem vcode_inj {a b : String} (h : "V" ++ a = "V" ++ b) : a = b := by
  have hd := congrArg String.data h
  rw [String.data_append, String.data_append] at hd
  have : a.data = b.data := List.append_cancel_left hd
  exact congrArg String.mk this

/-- Claim C7: after step 5, when the variation-integration column resolves
in the (final) header block, the variation-group code `V ++ pid` is written
into exactly the rows of those product IDs occupying more than one data row
of TEM_OUTPUT; a product with a single data row receives no code. -/
theorem step5_variation_spec (tem basic margin : Matrix)
    (hvar : (s5After s5Init tem).iVar ≠ -1) :
    (∀ u ∈ step5VarCells tem basic margin, u ∈ runStep5 tem basic margin) ∧
    ∀ (r : Nat) (pid : String),
      ((⟨r, ((s5After s5Init tem).iVar + 2).toNat, "V" ++ pid⟩ : Cell) ∈
          step5VarCells tem basic margin ↔
        (r ∈ step5PidRows tem pid ∧ 1 < (step5PidRows tem pid).length)) := by
  have hst : (step5Go (pidToDesc basic) (skuToPrice margin) 0 s5Init [] tem).2.2 =
      s5After s5Init tem :=
    step5Go_state (pidToDesc basic) (skuToPrice margin) tem 0 s5Init []
  have hgr : (step5Go (pidToDesc basic) (skuToPrice margin) 0 s5Init [] tem).2.1 =
      groupsGo 0 false [] tem :=
    step5Go_groups (pidToDesc basic) (skuToPrice margin) tem 0 s5Init []
  constructor
  · intro u hu
    rw [runStep5]
    exact List.mem_append_right _ hu
  · intro r pid
    have hget0 := groupsGo_get pid tem 0 false []
    simp only [dictGet] at hget0
    constructor
    · intro hu
      simp only [step5VarCells] at hu
      rw [hst, hgr, varCells, if_pos hvar] at hu
      rcases List.mem_bind.mp hu with ⟨⟨k, l⟩, hkl, hcell⟩
      by_cases hlen : 1 < l.length
      · rw [if_pos hlen] at hcell
        rcases List.mem_map.mp hcell with ⟨r', hr', heq⟩
        have heq' := Cell.mk.injEq .. ▸ heq
        rcases heq' with ⟨hr'', -, hv⟩
        have hkp : k = pid := vcode_inj hv
        subst hkp
        subst hr''
        have hnd := groupsGo_nodup tem 0 false [] (by simp)
        have hget := dictGet_of_mem hnd hkl
        rw [hget0] at hget
        by_cases hnil : pidRowsGo k 0 false tem = []
        · rw [if_pos hnil] at hget
          exact absurd hget (by simp)
        · rw [if_neg hnil] at hget
          rcases Option.some_inj.mp hget with rfl
          exact ⟨hr', hlen⟩
      · rw [if_neg hlen] at hcell
        exact absurd hcell (List.not_mem_nil _)
    · rintro ⟨hr, hlen⟩
      have hne : pidRowsGo pid 0 false tem ≠ [] := by
        intro h
        rw [step5PidRows, h] at hr
        exact absurd hr (List.not_mem_nil r)
      have hget : dictGet (groupsGo 0 false [] tem) pid =
          some (step5PidRows tem pid) := by
        rw [hget0, if_neg hne]
        rfl
      have hmem := dictGet_mem hget
      simp only [step5VarCells]
      rw [hst, hgr, varCells, if_pos hvar]
      apply List.mem_bind.mpr
      refine ⟨(pid, step5PidRows tem pid), hmem, ?_⟩
      rw [if_pos hlen]
      exact List.mem_map.mpr ⟨r, hr, rfl⟩

/-- Witness for C7 at a concrete input: the pid with two data rows gets the
code in both rows. -/
theorem step5_variation_spec_witness :
    (⟨2, 3, "V" ++ "P1"⟩ : Cell) ∈
      step5VarCells [["", "Category", "Variation Integration"],
        ["P1", "c/x", ""], ["P1", "c/x", ""], ["P2", "c/x", ""]] [] [] :=
  ((step5_variation_spec
    [["", "Category", "Variation Integration"],
      ["P1", "c/x", ""], ["P1", "c/x", ""], ["P2", "c/x", ""]] [] []
    (by decide)).2 2 "P1").mpr ⟨by decide, by decide⟩

/-! ## STEP 2: mandatory defaults (run_step_2) -/

/-- `d.setdefault(cat, dict())[attr] = dval` on a nested dict. -/
def dictInsert2 : List (String × List (String × String)) → String → String → String →
    List (String × List (String × String))
  | [], cat, attr, dval => [(cat, [(attr, dval)])]
  | (c, d) :: rest, cat, attr, dval =>
    if c = cat then (c, dictInsert d attr dval) :: rest
    else (c, d) :: dictInsert2 rest cat attr dval

/-- `_read_defaults_ws`: one MandatoryDefaults tab parsed into
category -> attribute-key -> default value. -/
def _read_defaults_ws (vals : Matrix) : List (String × List (String × String)) :=
  match vals with
  | [] => []
  | hdr :: rows =>
    let keys := hdr.map header_key
    let c := _find_col_index keys "category" []
    let a := _find_col_index keys "attribute" ["attr", "property"]
    let d := _find_col_index keys "defaultvalue" ["default"]
    if c < 0 ∨ a < 0 ∨ d < 0 then []
    else
      rows.foldl (fun out row =>
        let cat := pyStrip (cellI row c)
        let attr := pyStrip (cellI row a)
        let dval := pyStrip (cellI row d)
        if cat ≠ "" ∧ attr ≠ "" then
          dictInsert2 out (strLower (pyStrip cat)) (header_key attr) dval
        else out) []

/-- `ws.title.lower().startswith("mandatorydefaults_")`. -/
def mandatoryTitle (title : String) : Bool :=
  "mandatorydefaults_".data.isPrefixOf (strLower title).data

/-- The merged `defaults_map` over all MandatoryDefaults tabs of the
reference spreadsheet, in worksheet order (later tabs overwrite per
category and attribute). -/
def mergedDefaults (sheets : List (String × Matrix)) :
    List (String × List (String × String)) :=
  sheets.foldl (fun dm s =>
    if mandatoryTitle s.1 then
      (_read_defaults_ws s.2).foldl (fun dm1 kd =>
        kd.2.foldl (fun dm2 ad => dictInsert2 dm2 kd.1 ad.1 ad.2) dm1) dm
    else dm) []

/-- `catprops_map` from the `cat props` tab: category to the header keys of
the columns whose cell says "mandatory".  (A data row longer than the
header would raise an IndexError in Python; the model reads missing header
keys as `""`.) -/
def catPropsMap (vals : Matrix) : List (String × List String) :=
  match vals with
  | [] => []
  | hdr :: rows =>
    let hdr_keys := hdr.map header_key
    rows.foldl (fun m row =>
      let cat_raw := pyStrip (cellAt row 0)
      if cat_raw = "" then m
      else
        let mand := row.enum.filterMap (fun jc =>
          if strLower (pyStrip jc.2) = "mandatory" then some (hdr_keys.getD jc.1 "")
          else none)
        if mand ≠ [] then dictInsert m (strLower (pyStrip cat_raw)) mand else m) []

/-- `color_ranges_by_col[j].append(span)`. -/
def colorAppend : List (Int × List (Nat × Nat)) → Int → Nat × Nat →
    List (Int × List (Nat × Nat))
  | [], j, sp => [(j, [sp])]
  | (j', l) :: rest, j, sp =>
    if j' = j then (j', l ++ [sp]) :: rest else (j', l) :: colorAppend rest j sp

/-- Output of the step-2 loop: pending value updates and the per-column
row spans to color. -/
structure Step2Out where
  updates : List Cell
  colorSpans : List (Int × List (Nat × Nat))
deriving DecidableEq

/-- Default-filling of one data row: iterate the merged per-category map. -/
def step2RowUpdates (keys : List String) (dmap : List (String × String))
    (overwrite : Bool) (r0 : Nat) (row : List String) : List Cell :=
  dmap.foldl (fun acc ad =>
    if ad.2 = "" then acc
    else
      let j := _find_col_index keys ad.1 []
      if j < 0 then acc
      else
        if pyStrip (cellAt row (j.toNat + 1)) = "" ∨ overwrite then
          acc ++ [⟨r0 + 1, j.toNat + 2, ad.2⟩]
        else acc) []

/-- Column indices colored for one data row. -/
def step2RowColors (keys : List String) (catprops : List (String × List String))
    (cat : String) : List Int :=
  match dictGet catprops cat with
  | some mand =>
    mand.foldl (fun acc attr =>
      let j := _find_col_index keys attr []
      if 0 ≤ j then acc ++ [j] else acc) []
  | none => []

/-- The step-2 loop over TEM_OUTPUT. -/
def step2Go (dm : List (String × List (String × String)))
    (catprops : List (String × List String)) (overwrite : Bool) :
    Nat → Option (List String) → Step2Out → List (List String) → Step2Out
  | _, _, acc, [] => acc
  | r0, keys?, acc, row :: rest =>
    if isHdrRow row then
      step2Go dm catprops overwrite (r0 + 1) (some ((row.drop 1).map header_key)) acc rest
    else
      match keys? with
      | none => step2Go dm catprops overwrite (r0 + 1) none acc rest
      | some keys =>
        let pid := pyStrip (cellAt row 0)
        let cat_raw := pyStrip (cellAt row 1)
        if pid = "" ∨ cat_raw = "" then
          step2Go dm catprops overwrite (r0 + 1) (some keys) acc rest
        else
          let norm_cat := strLower (pyStrip cat_raw)
          let acc1 := (step2RowColors keys catprops norm_cat).foldl
            (fun a j => ⟨a.updates, colorAppend a.colorSpans j (r0, r0 + 1)⟩) acc
          let acc2 :=
            match dictGet dm norm_cat with
            | some dmap =>
              ⟨acc1.updates ++ step2RowUpdates keys dmap overwrite r0 row,
                acc1.colorSpans⟩
            | none => acc1
          step2Go dm catprops overwrite (r0 + 1) (some keys) acc2 rest

/-- The value-filling part of `run_step_2` (plus the collected color spans):
reference worksheets are given as (title, values). -/
def runStep2Fill (refSheets : List (String × Matrix)) (catPropsVals : Matrix)
    (tem : Matrix) (overwrite : Bool) : Step2Out :=
  step2Go (mergedDefaults refSheets) (catPropsMap catPropsVals) overwrite 0 none ⟨[], []⟩ tem

theorem head?_dropWhile_false {α : Type} {p : α → Bool} {l : List α} {x : α}
    (h : (l.dropWhile p).head? = some x) : p x = false := by
  have hm := List.head?_dropWhile_not p l
  rw [h] at hm
  exact hm

theorem dropWhile_eq_self_of_head? {α : Type} {p : α → Bool} {l : List α}
    (h : ∀ x, l.head? = some x → p x = false) : l.dropWhile p = l := by
  cases l with
  | nil => rfl
  | cons c rest => simp [List.dropWhile_cons, h c rfl]

theorem pyStrip_idem (s : String) : pyStrip (pyStrip s) = pyStrip s := by
  unfold pyStrip
  simp only
  have h1 : ((s.data.dropWhile pyWs).reverse.dropWhile pyWs).reverse.dropWhile pyWs =
      ((s.data.dropWhile pyWs).reverse.dropWhile pyWs).reverse := by
    apply dropWhile_eq_self_of_head?
    intro x hx
    rw [List.head?_reverse] at hx
    rcases (List.dropWhile_suffix (l := (s.data.dropWhile pyWs).reverse) pyWs)
      with ⟨pre, hpre⟩
    have hrev : (s.data.dropWhile pyWs).reverse.getLast? = some x := by
      rw [← hpre, List.getLast?_append, hx]
      rfl
    rw [List.getLast?_reverse] at hrev
    exact head?_dropWhile_false hrev
  rw [h1, List.reverse_reverse]
  rw [dropWhile_eq_self_of_head? (fun x hx => head?_dropWhile_false hx)]

theorem step2RowUpdates_aux {keys : List String} {overwrite : Bool} {r0 : Nat}
    {row : List String} :
    ∀ (dmap : List (String × String)) (acc : List Cell) (u : Cell),
      u ∈ dmap.foldl (fun acc ad =>
        if ad.2 = "" then acc
        else
          let j := _find_col_index keys ad.1 []
          if j < 0 then acc
          else
            if pyStrip (cellAt row (j.toNat + 1)) = "" ∨ overwrite then
              acc ++ [⟨r0 + 1, j.toNat + 2, ad.2⟩]
            else acc) acc →
      u ∈ acc ∨ ∃ ad ∈ dmap, ad.2 ≠ "" ∧
        ¬ _find_col_index keys ad.1 [] < 0 ∧
        (pyStrip (cellAt row ((_find_col_index keys ad.1 []).toNat + 1)) = "" ∨
          overwrite = true) ∧
        u = ⟨r0 + 1, (_find_col_index keys ad.1 []).toNat + 2, ad.2⟩ := by
  intro dmap
  induction dmap with
  | nil =>
    intro acc u hu
    exact Or.inl hu
  | cons ad rest ih =>
    intro acc u hu
    rw [List.foldl_cons] at hu
    rcases ih _ u hu with hacc | ⟨ad', had', hrest⟩
    · by_cases h1 : ad.2 = ""
      · rw [if_pos h1] at hacc
        exact Or.inl hacc
      · rw [if_neg h1] at hacc
        simp only at hacc
        by_cases h2 : _find_col_index keys ad.1 [] < 0
        · rw [if_pos h2] at hacc
          exact Or.inl hacc
        · rw [if_neg h2] at hacc
          by_cases h3 : pyStrip (cellAt row ((_find_col_index keys ad.1 []).toNat + 1)) = "" ∨
              overwrite = true
          · rw [if_pos h3] at hacc
            rcases List.mem_append.mp hacc with hacc' | hcell
            · exact Or.inl hacc'
            · exact Or.inr ⟨ad, List.mem_cons_self _ _, h1, h2, h3,
                List.mem_singleton.mp hcell⟩
          · rw [if_neg h3] at hacc
            exact Or.inl hacc
    · exact Or.inr ⟨ad', List.mem_cons_of_mem _ had', hrest⟩

theorem step2RowUpdates_mem {keys : List String} {dmap : List (String × String)}
    {overwrite : Bool} {r0 : Nat} {row : List String} {u : Cell}
    (hu : u ∈ step2RowUpdates keys dmap overwrite r0 row) :
    ∃ ad ∈ dmap, ad.2 ≠ "" ∧ ¬ _find_col_index keys ad.1 [] < 0 ∧
      (pyStrip (cellAt row ((_find_col_index keys ad.1 []).toNat + 1)) = "" ∨
        overwrite = true) ∧
      u = ⟨r0 + 1, (_find_col_index keys ad.1 []).toNat + 2, ad.2⟩ := by
  rw [step2RowUpdates] at hu
  rcases step2RowUpdates_aux dmap [] u hu with hacc | h
  · exact absurd hacc (List.not_mem_nil u)
  · exact h

theorem colorFold_updates (r0 : Nat) :
    ∀ (cs : List Int) (acc : Step2Out),
      (cs.foldl (fun a j => ⟨a.updates, colorAppend a.colorSpans j (r0, r0 + 1)⟩)
        acc).updates = acc.updates := by
  intro cs
  induction cs with
  | nil =>
    intro acc
    rfl
  | cons j rest ih =>
    intro acc
    rw [List.foldl_cons, ih]

/-- The property claim C5 asserts of every step-2 value update: the target
cell is blank (empty after trimming) and the written value comes from the
merged per-category defaults map of the row's category. -/
def Step2P (dm : List (String × List (String × String))) (tem : Matrix)
    (u : Cell) : Prop :=
  ∃ (r0 : Nat) (row : List String), tem.get? r0 = some row ∧ u.row = r0 + 1 ∧
    2 ≤ u.col ∧ pyStrip (cellAt row (u.col - 1)) = "" ∧ u.value ≠ "" ∧
    ∃ dmap attr, dictGet dm (strLower (pyStrip (cellAt row 1))) = some dmap ∧
      (attr, u.value) ∈ dmap

theorem step2Go_mem (dm : List (String × List (String × String)))
    (catprops : List (String × List String)) (tem : Matrix) :
    ∀ (rows : List (List String)) (r0 : Nat) (keys? : Option (List String))
      (acc : Step2Out),
      (∀ j row', rows.get? j = some row' → tem.get? (r0 + j) = some row') →
      (∀ u ∈ acc.updates, Step2P dm tem u) →
      ∀ u ∈ (step2Go dm catprops false r0 keys? acc rows).updates,
        Step2P dm tem u := by
  intro rows
  induction rows with
  | nil =>
    intro r0 keys? acc _ hacc u hu
    rw [step2Go] at hu
    exact hacc u hu
  | cons row rest ih =>
    intro r0 keys? acc hget hacc u hu
    have hget' : ∀ j row', rest.get? j = some row' →
        tem.get? (r0 + 1 + j) = some row' := by
      intro j row' h
      have := hget (j + 1) row' (by simpa using h)
      rwa [show r0 + (j + 1) = r0 + 1 + j by omega] at this
    rcases keys? with _ | keys
    · rw [step2Go] at hu
      by_cases hh : isHdrRow row
      · rw [if_pos hh] at hu
        exact ih (r0 + 1) _ acc hget' hacc u hu
      · rw [if_neg hh] at hu
        exact ih (r0 + 1) none acc hget' hacc u hu
    · rw [step2Go] at hu
      by_cases hh : isHdrRow row
      · rw [if_pos hh] at hu
        exact ih (r0 + 1) _ acc hget' hacc u hu
      · rw [if_neg hh] at hu
        simp only at hu
        by_cases hb : pyStrip (cellAt row 0) = "" ∨ pyStrip (cellAt row 1) = ""
        · rw [if_pos hb] at hu
          exact ih (r0 + 1) (some keys) acc hget' hacc u hu
        · rw [if_neg hb] at hu
          rcases hd : dictGet dm (strLower (pyStrip (pyStrip (cellAt row 1))))
            with _ | dmap
          · rw [hd] at hu
            refine ih (r0 + 1) (some keys) _ hget' ?_ u hu
            rw [colorFold_updates]
            exact hacc
          · rw [hd] at hu
            refine ih (r0 + 1) (some keys) _ hget' ?_ u hu
            intro v hv
            simp only [colorFold_updates] at hv
            rcases List.mem_append.mp hv with hv' | hv'
            · exact hacc v hv'
            · rcases step2RowUpdates_mem hv' with ⟨ad, had, hne, hjpos, hblank, hveq⟩
              have hrow0 : tem.get? r0 = some row := by
                have := hget 0 row rfl
                rwa [Nat.add_zero] at this
              refine ⟨r0, row, hrow0, by rw [hveq],
                by rw [hveq]; exact Nat.le_add_left 2 _, ?_, ?_, ?_⟩
              · rw [hveq]
                simpa using hblank.resolve_right (by simp)
              · rw [hveq]
                exact hne
              · refine ⟨dmap, ad.1, ?_, ?_⟩
                · rw [← pyStrip_idem (cellAt row 1)]
                  exact hd
                · rw [hveq]
                  simpa using had

/-- Claim C5: with the overwrite flag false, every value written by the
default-filling of step 2 goes into a cell that is currently blank (empty
after trimming), and the value is a non-empty default drawn from the
per-category merge of all MandatoryDefaults tabs for the row's category;
every cell holding non-blank content receives no update. -/
theorem step2_blank_only_defaults (refSheets : List (String × Matrix))
    (catPropsVals : Matrix) (tem : Matrix) :
    ∀ u ∈ (runStep2Fill refSheets catPropsVals tem false).updates,
      Step2P (mergedDefaults refSheets) tem u := by
  intro u hu
  exact step2Go_mem (mergedDefaults refSheets) (catPropsMap catPropsVals) tem
    tem 0 none ⟨[], []⟩ (fun j row' h => by simpa using h)
    (fun v hv => absurd hv (List.not_mem_nil v)) u hu

/-- Witness for C5 at a concrete input. -/
theorem step2_blank_only_defaults_witness :
    Step2P (mergedDefaults [("MandatoryDefaults_A",
        [["Category", "Attribute", "Default Value"], ["beauty", "Brand", "NoBrand"]])])
      [["", "Category", "Brand"], ["P1", "Beauty", ""]] ⟨2, 3, "NoBrand"⟩ :=
  step2_blank_only_defaults
    [("MandatoryDefaults_A",
      [["Category", "Attribute", "Default Value"], ["beauty", "Brand", "NoBrand"]])]
    [] [["", "Category", "Brand"], ["P1", "Beauty", ""]] ⟨2, 3, "NoBrand"⟩
    (by decide)

/-! ## STEP 1: build TEM_OUTPUT (run_step_1) -/

/-- The env-driven row configuration of step 1
(`BASIC_HEADER_ROW`, `BASIC_FIRST_DATA_ROW`, `MEDIA_HEADER_ROW`,
`MEDIA_FIRST_DATA_ROW`). -/
structure Step1Cfg where
  basicHeader : Int
  basicFirst : Int
  mediaHeader : Int
  mediaFirst : Int
deriving DecidableEq

/-- The parsed MEDIA header (`MediaHeader` class). -/
structure MediaHdr where
  pid : Int
  pname : Int
  category : Int
  cover : Int
  var_label : Int
  item_images : List Nat
  opt_name_cols : List Nat
  opt_img_cols : List Int
deriving DecidableEq

/-- Match of `^option(\d+)name$` against a normalized header key,
returning the captured digit group. -/
def optNameNum (k : List Char) : Option (List Char) :=
  if "option".data.isPrefixOf k then
    let rest := k.drop 6
    let ds := rest.takeWhile Char.isDigit
    if ds ≠ [] ∧ rest.drop ds.length = "name".data then some ds else none
  else none

/-- `parse_media_header_row`. -/
def parse_media_header_row (header_row : List String) : MediaHdr :=
  let keys := header_row.map header_key
  let optPairs := header_row.enum.filterMap (fun p =>
    match optNameNum (header_key p.2).data with
    | some ds => some (p.1, ds)
    | none => none)
  { pid := _find_col_index keys "productid" ["pid", "itemid", "ettitleproductid"],
    pname := _find_col_index keys "productname" ["itemname", "name"],
    category := _find_col_index keys "category" [],
    cover := _find_col_index keys "coverimage" ["coverimg"],
    var_label := _find_col_index keys "variationname1" ["variationname", "variation"],
    item_images := header_row.enum.filterMap (fun p =>
      if "itemimage".data.isPrefixOf (header_key p.2).data then some p.1 else none),
    opt_name_cols := optPairs.map Prod.fst,
    opt_img_cols := optPairs.map (fun p =>
      match header_row.enum.find? (fun q =>
          header_key q.2 = ⟨"option".data ++ p.2 ++ "image".data⟩) with
      | some q => (q.1 : Int)
      | none => -1) }

/-- `template_dict`: first column key (header_key) to the stripped rest of
the row, over TemplateDict data rows with a non-blank key. -/
def templateDict (template_vals : Matrix) : List (String × List String) :=
  (template_vals.drop 1).foldl (fun d row =>
    if pyStrip (cellAt row 0) ≠ "" then
      dictInsert d (header_key (cellAt row 0)) ((row.drop 1).map pyStrip)
    else d) []

/-- The SALES mappings `parent_sku_map` and `sku_by_pid_opt` (the latter
keyed by (pid, whitespace-normalized lowercase option name)). -/
def salesMaps (sales_vals : Matrix) :
    List (String × String) × List ((String × String) × String) :=
  match sales_vals with
  | [] => ([], [])
  | hdr :: _ =>
    let pid_idx := _pick_index_by_candidates hdr
      ["product id", "pid", "item id", "et_title_product_id"]
    let psku_idx := _pick_index_by_candidates hdr
      ["parent sku", "parent_sku", "seller sku", "seller_sku", "et_title_parent_sku"]
    let var_name_idx := _pick_index_by_candidates hdr
      ["variation name", "option name", "option 1 name", "variation option",
        "variation", "option"]
    let sku_idx := _pick_index_by_candidates hdr
      ["sku", "variation sku", "child sku", "option sku", "seller_child_sku",
        "et_title_child_sku"]
    if 0 ≤ pid_idx then
      (sales_vals.drop 1).foldl (fun maps row =>
        let pid := pyStrip (if pid_idx < (row.length : Int) then
          cellAt row pid_idx.toNat else "")
        if pid = "" then maps
        else
          ((if 0 ≤ psku_idx ∧ psku_idx < (row.length : Int) ∧
              pyStrip (cellAt row psku_idx.toNat) ≠ "" then
              dictInsert maps.1 pid (pyStrip (cellAt row psku_idx.toNat))
            else maps.1),
           (if 0 ≤ var_name_idx ∧ var_name_idx < (row.length : Int) ∧
              0 ≤ sku_idx ∧ sku_idx < (row.length : Int) then
              let vname := pyStrip (cellAt row var_name_idx.toNat)
              let sku := pyStrip (cellAt row sku_idx.toNat)
              if vname ≠ "" ∧ sku ≠ "" then
                dictInsert maps.2 (pid, wsNorm vname) sku
              else maps.2
            else maps.2))) ([], [])
    else ([], [])

/-- SALES worksheet may be missing (`except` branch): no mappings then. -/
def salesMapsOpt : Option Matrix → List (String × String) × List ((String × String) × String)
  | none => ([], [])
  | some v => salesMaps v

/-- One per-top-category bucket of `buckets`. -/
structure Bucket where
  top : String
  headers : List String
  pids : List (List String)
  rows : List (List String)
deriving DecidableEq

/-- `buckets.setdefault(top, ...)` followed by the two appends. -/
def updBucket : List Bucket → String → List String → String → List String → List Bucket
  | [], top, headers, pid, arr => [⟨top, headers, [[pid]], [arr]⟩]
  | b :: rest, top, headers, pid, arr =>
    if b.top = top then
      ⟨b.top, b.headers, b.pids ++ [[pid]], b.rows ++ [arr]⟩ :: rest
    else b :: updBucket rest top headers pid arr

/-- `set_if_exists`. -/
def set_if_exists (headers arr : List String) (name value : String) : List String :=
  let idx := _find_col_index (headers.map header_key) name []
  if 0 ≤ idx then arr.set idx.toNat value else arr

/-- The output row built for one (product, option) pair. -/
def step1BuildArr (headers : List String) (cat pname var_label_val opt_name_raw
    opt_img : String) (item_imgs : List String) (psku_val : String)
    (csku : Option String) : List String :=
  let a0 := List.replicate headers.length ""
  let a1 := set_if_exists headers a0 "category" cat
  let a2 := set_if_exists headers a1 "product name" pname
  let a3 := set_if_exists headers a2 "variation name1" var_label_val
  let a4 := set_if_exists headers a3 "option for variation 1" opt_name_raw
  let a5 := if opt_img ≠ "" then set_if_exists headers a4 "image per variation" opt_img else a4
  let a6 := item_imgs.enum.foldl (fun a p =>
    if p.2 ≠ "" then set_if_exists headers a ("item image " ++ toString (p.1 + 1)) p.2
    else a) a5
  let a7 := if psku_val ≠ "" then set_if_exists headers a6 "parent sku" psku_val else a6
  match csku with
  | some s => set_if_exists headers a7 "sku" s
  | none => a7

/-- Accumulated state of the step-1 build loop. -/
structure Step1St where
  buckets : List Bucket
  failures : Matrix
  processed : Nat
deriving DecidableEq

/-- Processing of one (option name, option image) pair. -/
def step1Opt (csku_map : List ((String × String) × String))
    (headers : List String) (top_norm cat pname var_label_val : String)
    (item_imgs : List String) (psku_val pid : String)
    (st : Step1St) (opt : String × String) : Step1St :=
  let csku_val := dictGet csku_map (pid, wsNorm opt.1)
  let cskuT : Option String :=
    match csku_val with
    | some s => if s ≠ "" then some s else none
    | none => none
  let arr := step1BuildArr headers cat pname var_label_val opt.1 opt.2
    item_imgs psku_val cskuT
  let fails : Matrix :=
    match cskuT with
    | some _ => []
    | none =>
      if opt.1 ≠ "" then [[pid, cat, pname, "SKU_MATCH_NOT_FOUND", "opt=" ++ opt.1]]
      else []
  ⟨updBucket st.buckets top_norm headers pid arr, st.failures ++ fails,
    st.processed + 1⟩

/-- Processing of one MEDIA data row. -/
def step1Row (tdict : List (String × List String))
    (psku_map : List (String × String))
    (csku_map : List ((String × String) × String)) (mh : MediaHdr)
    (st : Step1St) (row : List String) : Step1St :=
  let pid := if 0 ≤ mh.pid ∧ mh.pid < (row.length : Int) then
    pyStrip (cellAt row mh.pid.toNat) else ""
  let cat := if 0 ≤ mh.category ∧ mh.category < (row.length : Int) then
    pyStrip (cellAt row mh.category.toNat) else ""
  if pid = "" ∨ cat = "" then st
  else
    let pname := if 0 ≤ mh.pname ∧ mh.pname < (row.length : Int) then
      cellAt row mh.pname.toNat else ""
    let item_imgs := (mh.item_images.filter (fun i => i < row.length)).map
      (fun i => pyStrip (cellAt row i))
    let var_label_val := if 0 ≤ mh.var_label ∧ mh.var_label < (row.length : Int) then
      pyStrip (cellAt row mh.var_label.toNat) else ""
    let top_norm := strLower ((top_of_category cat).getD "")
    let headers :=
      let a := (dictGet tdict (header_key top_norm)).getD []
      if a = [] then (dictGet tdict (header_key cat)).getD [] else a
    if headers = [] then
      ⟨st.buckets,
        st.failures ++ [[pid, cat, pname, "TEMPL_HEADER_NOT_FOUND", "top=" ++ top_norm]],
        st.processed⟩
    else
      let psku_val := (dictGet psku_map pid).getD ""
      let options : List (String × String) :=
        if mh.opt_name_cols ≠ [] then
          (mh.opt_name_cols.zip mh.opt_img_cols).filterMap (fun p =>
            let opt_name_raw := if p.1 < row.length then pyStrip (cellAt row p.1) else ""
            let opt_img := if 0 ≤ p.2 ∧ p.2 < (row.length : Int) then
              pyStrip (cellAt row p.2.toNat) else ""
            if opt_name_raw ≠ "" then some (opt_name_raw, opt_img) else none)
        else [("", "")]
      options.foldl
        (step1Opt csku_map headers top_norm cat pname var_label_val item_imgs psku_val pid)
        st

/-- `out_matrix`: per bucket one embedded header row (blank column A, the
headers from column B) followed by the bucket's `pid ++ data` rows. -/
def flattenBuckets (bs : List Bucket) : Matrix :=
  bs.bind (fun b => ([""] ++ b.headers) :: (b.pids.zip b.rows).map (fun p => p.1 ++ p.2))

/-- `run_step_1`: the written TEM_OUTPUT matrix and the failure rows, or the
raised error.  BASIC participates only in the row-count check. -/
def runStep1 (cfg : Step1Cfg) (basic media template : Matrix)
    (sales : Option Matrix) : Except String (Matrix × Matrix) :=
  if (basic.length : Int) < cfg.basicHeader then
    .error "BASIC has fewer than BASIC_HEADER_ROW rows"
  else if (media.length : Int) < cfg.mediaHeader then
    .error "MEDIA has fewer than MEDIA_HEADER_ROW rows"
  else if (template.length : Int) < 2 then
    .error "TemplateDict has no valid rows"
  else
    let header_idx := cfg.mediaHeader - 1
    if header_idx < 0 ∨ (media.length : Int) ≤ header_idx then
      .error "MEDIA_HEADER_ROW is out of range"
    else
      let mh := parse_media_header_row (media.getD header_idx.toNat [])
      if mh.pid < 0 ∨ mh.category < 0 then
        .error "MEDIA header missing required columns"
      else
        let tdict := templateDict template
        let smaps := salesMapsOpt sales
        let start_r := max (cfg.mediaFirst - 1) (header_idx + 1)
        let st := (media.drop start_r.toNat).foldl
          (step1Row tdict smaps.1 smaps.2 mh) ⟨[], [], 0⟩
        if st.processed = 0 then
          .error "No MEDIA data rows were processed"
        else .ok (flattenBuckets st.buckets, st.failures)

/-- Claim C1, counterexample: the TEM_OUTPUT matrix carries no field values
from BASIC.  Two runs with different BASIC contents (of admissible length)
produce identical output, and the BASIC-only value "BasicName" appears
nowhere in it: run_step_1 reads BASIC only for its row-count check. -/
theorem step1_ignores_basic_values :
    ([["x"]] : Matrix) ≠ [["y", "BasicName"]] ∧
    runStep1 ⟨1, 2, 1, 2⟩ [["x"]]
      [["Product ID", "Product Name", "Category", "Item Image 1"],
       ["P1", "Name1", "Beauty/Skin", "img1"]]
      [["top", "c1"], ["beauty", "Category", "Product Name", "Item Image 1"]] none =
    runStep1 ⟨1, 2, 1, 2⟩ [["y", "BasicName"]]
      [["Product ID", "Product Name", "Category", "Item Image 1"],
       ["P1", "Name1", "Beauty/Skin", "img1"]]
      [["top", "c1"], ["beauty", "Category", "Product Name", "Item Image 1"]] none ∧
    runStep1 ⟨1, 2, 1, 2⟩ [["y", "BasicName"]]
      [["Product ID", "Product Name", "Category", "Item Image 1"],
       ["P1", "Name1", "Beauty/Skin", "img1"]]
      [["top", "c1"], ["beauty", "Category", "Product Name", "Item Image 1"]] none =
      .ok ([["", "Category", "Product Name", "Item Image 1"],
            ["P1", "Beauty/Skin", "Name1", "img1"]], []) ∧
    ∀ row ∈ [["", "Category", "Product Name", "Item Image 1"],
             ["P1", "Beauty/Skin", "Name1", "img1"]], "BasicName" ∉ row :=
  ⟨by decide, rfl, rfl, by decide⟩

/-- The structural invariant of the step-1 buckets: every bucket has at
least one data row and as many PID rows as data rows. -/
def BucketInv (bs : List Bucket) : Prop :=
  ∀ b ∈ bs, b.rows ≠ [] ∧ b.pids.length = b.rows.length

theorem updBucket_inv {bs : List Bucket} {top : String} {headers : List String}
    {pid : String} {arr : List String} (h : BucketInv bs) :
    BucketInv (updBucket bs top headers pid arr) := by
  induction bs with
  | nil =>
    intro b hb
    rw [updBucket] at hb
    rcases List.mem_singleton.mp hb with rfl
    exact ⟨by simp, by simp⟩
  | cons b0 rest ih =>
    intro b hb
    rw [updBucket] at hb
    by_cases he : b0.top = top
    · rw [if_pos he] at hb
      rcases List.mem_cons.mp hb with rfl | hb'
      · have h0 := h b0 (List.mem_cons_self _ _)
        exact ⟨by simp, by simp [h0.2]⟩
      · exact h b (List.mem_cons_of_mem _ hb')
    · rw [if_neg he] at hb
      rcases List.mem_cons.mp hb with rfl | hb'
      · exact h b (List.mem_cons_self _ _)
      · exact ih (fun b' hb'' => h b' (List.mem_cons_of_mem _ hb'')) b hb'

theorem step1Opt_inv {csku_map : List ((String × String) × String)}
    {headers : List String} {top_norm cat pname v : String}
    {imgs : List String} {psku pid : String} {st : Step1St} {opt : String × String}
    (h : BucketInv st.buckets) :
    BucketInv ((step1Opt csku_map headers top_norm cat pname v imgs psku pid
      st opt).buckets) := by
  simp only [step1Opt]
  exact updBucket_inv h

theorem step1Opts_inv (csku_map : List ((String × String) × String))
    (headers : List String) (top_norm cat pname v : String)
    (imgs : List String) (psku pid : String) :
    ∀ (opts : List (String × String)) (st : Step1St), BucketInv st.buckets →
      BucketInv ((opts.foldl
        (step1Opt csku_map headers top_norm cat pname v imgs psku pid)
        st).buckets) := by
  intro opts
  induction opts with
  | nil =>
    intro st h
    exact h
  | cons o rest ih =>
    intro st h
    rw [List.foldl_cons]
    exact ih _ (step1Opt_inv h)

theorem step1Row_inv {tdict : List (String × List String)}
    {psku_map : List (String × String)}
    {csku_map : List ((String × String) × String)} {mh : MediaHdr}
    {st : Step1St} {row : List String} (h : BucketInv st.buckets) :
    BucketInv ((step1Row tdict psku_map csku_map mh st row).buckets) := by
  simp only [step1Row]
  repeat' split
  all_goals
    first
      | exact h
      | exact step1Opts_inv _ _ _ _ _ _ _ _ _ _ _ h

theorem step1Fold_inv (tdict : List (String × List String))
    (psku_map : List (String × String))
    (csku_map : List ((String × String) × String)) (mh : MediaHdr) :
    ∀ (rows : List (List String)) (st : Step1St), BucketInv st.buckets →
      BucketInv ((rows.foldl (step1Row tdict psku_map csku_map mh) st).buckets) := by
  intro rows
  induction rows with
  | nil =>
    intro st h
    exact h
  | cons r rest ih =>
    intro st h
    rw [List.foldl_cons]
    exact ih _ (step1Row_inv h)

/-- Claim C1, amended: step 1 builds the TEM_OUTPUT matrix from MEDIA rows
merged against the template dictionary keyed by top-level category,
optionally enriched with SALES parent/child SKU data — BASIC contributes no
field values (the run is invariant under any BASIC of admissible length) —
and the matrix is a concatenation of per-top-category buckets, each one
embedded header row followed by that bucket's (non-empty) data rows. -/
theorem step1_spec :
    (∀ (cfg : Step1Cfg) (basic basic' media template : Matrix)
      (sales : Option Matrix),
      cfg.basicHeader ≤ (basic.length : Int) →
      cfg.basicHeader ≤ (basic'.length : Int) →
      runStep1 cfg basic media template sales =
        runStep1 cfg basic' media template sales) ∧
    (∀ (cfg : Step1Cfg) (basic media template : Matrix) (sales : Option Matrix)
      (M fails : Matrix),
      runStep1 cfg basic media template sales = .ok (M, fails) →
      ∃ bs : List Bucket, M = flattenBuckets bs ∧ BucketInv bs) := by
  constructor
  · intro cfg basic basic' media template sales h1 h2
    rw [runStep1, runStep1, if_neg (not_lt.mpr h1), if_neg (not_lt.mpr h2)]
  · intro cfg basic media template sales M fails h
    simp only [runStep1] at h
    split at h
    · exact absurd h (by simp)
    · split at h
      · exact absurd h (by simp)
      · split at h
        · exact absurd h (by simp)
        · split at h
          · exact absurd h (by simp)
          · split at h
            · exact absurd h (by simp)
            · split at h
              · exact absurd h (by simp)
              · simp only [Except.ok.injEq, Prod.mk.injEq] at h
                rcases h with ⟨hM, -⟩
                exact ⟨_, hM.symm,
                  step1Fold_inv _ _ _ _ _ _
                    (fun b hb => absurd hb (List.not_mem_nil b))⟩

/-- Witness for the amended C1 at a concrete input. -/
theorem step1_spec_witness :
    runStep1 ⟨1, 2, 1, 2⟩ [["x"]]
      [["Product ID", "Product Name", "Category", "Item Image 1"],
       ["P1", "Name1", "Beauty/Skin", "img1"]]
      [["top", "c1"], ["beauty", "Category", "Product Name", "Item Image 1"]] none =
    runStep1 ⟨1, 2, 1, 2⟩ [["x2", "y2"]]
      [["Product ID", "Product Name", "Category", "Item Image 1"],
       ["P1", "Name1", "Beauty/Skin", "img1"]]
      [["top", "c1"], ["beauty", "Category", "Product Name", "Item Image 1"]] none ∧
    ∃ bs : List Bucket,
      ([["", "Category", "Product Name", "Item Image 1"],
        ["P1", "Beauty/Skin", "Name1", "img1"]] : Matrix) = flattenBuckets bs ∧
      BucketInv bs :=
  ⟨step1_spec.1 ⟨1, 2, 1, 2⟩ [["x"]] [["x2", "y2"]]
      [["Product ID", "Product Name", "Category", "Item Image 1"],
       ["P1", "Name1", "Beauty/Skin", "img1"]]
      [["top", "c1"], ["beauty", "Category", "Product Name", "Item Image 1"]] none
      (by decide) (by decide),
   step1_spec.2 ⟨1, 2, 1, 2⟩ [["x"]]
      [["Product ID", "Product Name", "Category", "Item Image 1"],
       ["P1", "Name1", "Beauty/Skin", "img1"]]
      [["top", "c1"], ["beauty", "Category", "Product Name", "Item Image 1"]] none
      [["", "Category", "Product Name", "Item Image 1"],
       ["P1", "Beauty/Skin", "Name1", "img1"]] [] rfl⟩

/-! ## STEP 7: split by top-level category and export (run_step_7) -/

/-- Step-7 header test: `df.iloc[:, 1].astype(str).str.lower().eq("category")`
(note: unlike steps 2-6, NOT stripped). -/
def isHdrRow7 (row : List String) : Bool :=
  strLower (cellAt row 1) = "category"

/-- The positions of the embedded header rows (`header_indices`). -/
def hdrIdxsGo : Nat → List (List String) → List Nat
  | _, [] => []
  | i, row :: rest =>
    if isHdrRow7 row then i :: hdrIdxsGo (i + 1) rest else hdrIdxsGo (i + 1) rest

def headerIdxs (m : Matrix) : List Nat :=
  hdrIdxsGo 0 m

/-- `zip(hs, hs[1:] + [len])`: each header index paired with the next header
index (or the table length), as the Python block loop computes it. -/
def pairsWithEnd (hs : List Nat) (len : Nat) : List (Nat × Nat) :=
  hs.zip (hs.tail ++ [len])

/-- Python `str.title()`, ASCII model: a letter is uppercased after a
non-letter and lowercased after a letter. -/
def pyTitleGo (prevAlpha : Bool) : List Char → List Char
  | [] => []
  | c :: rest =>
    (if c.isAlpha then (if prevAlpha then c.toLower else c.toUpper) else c) ::
      pyTitleGo c.isAlpha rest

def pyTitle (s : String) : String :=
  ⟨pyTitleGo false s.data⟩

/-- The character class replaced by `_` in sheet names
(regex `[\s/\\*?:\[\]]`). -/
def sheetBad (c : Char) : Bool :=
  pyWs c || c = '/' || c = '\\' || c = '*' || c = '?' || c = ':' || c = '[' || c = ']'

/-- Sheet-name sanitization plus the Excel 31-character limit. -/
def sanitizeSheetName (s : String) : String :=
  ⟨(s.data.map (fun c => if sheetBad c then '_' else c)).take 31⟩

/-- `re.sub(r"\s*-\s*", "-", s)`: whitespace around hyphens collapsed.
`pending` holds whitespace not yet known to precede a hyphen; `afterH`
consumes the trailing `\s*` of a match. -/
def hyphenNormGo (pending : List Char) (afterH : Bool) : List Char → List Char
  | [] => if afterH then [] else pending
  | c :: rest =>
    if afterH then
      if pyWs c then hyphenNormGo [] true rest
      else if c = '-' then '-' :: hyphenNormGo [] true rest
      else c :: hyphenNormGo [] false rest
    else
      if c = '-' then '-' :: hyphenNormGo [] true rest
      else if pyWs c then hyphenNormGo (pending ++ [c]) false rest
      else pending ++ c :: hyphenNormGo [] false rest

def hyphenNorm (s : String) : String :=
  ⟨hyphenNormGo [] false s.data⟩

/-- One exported sheet built from a block (header row plus data rows):
the name comes from the top-level category of the first data row; column A
is dropped; the first remaining column of the data rows is
hyphen-normalized. -/
def step7Sheet (chunk : Matrix) : String × Matrix :=
  let hdrRow := chunk.headD []
  let dataRows := chunk.drop 1
  let first_cat := cellAt (dataRows.headD []) 1
  let top_level_name := (top_of_category first_cat).getD "UNKNOWN"
  let name0 := sanitizeSheetName (pyTitle top_level_name)
  ((if name0 = "" then "Sheet1" else name0),
    (hdrRow.drop 1) ::
      dataRows.map (fun r =>
        match r.drop 1 with
        | [] => []
        | c :: rest => hyphenNorm c :: rest))

/-- `run_step_7`, modelled as the list of (sheet name, sheet contents)
pairs written to the workbook (the Failure tab and the byte serialization
are direct pandas/xlsxwriter calls). -/
def step7Sheets (m : Matrix) : List (String × Matrix) :=
  if m.length < 2 then []
  else
    (pairsWithEnd (headerIdxs m) m.length).filterMap (fun he =>
      let chunk := (m.drop he.1).take (he.2 - he.1)
      if chunk.length < 2 then none else some (step7Sheet chunk))

/-- There is a (step-7) header row at index `j`. -/
def hdrRowAt7 (m : Matrix) (j : Nat) : Prop :=
  ∃ row, m.get? j = some row ∧ isHdrRow7 row = true

/-- The end of the block starting at header `h`: the next header index, or
the table length. -/
def nextHdr (m : Matrix) (h : Nat) : Nat :=
  h + 1 + ((firstIdx? isHdrRow7 (m.drop (h + 1))).getD (m.drop (h + 1)).length)

theorem hdrIdxsGo_mem :
    ∀ (l : List (List String)) (i j : Nat),
      j ∈ hdrIdxsGo i l ↔
        i ≤ j ∧ ∃ row, l.get? (j - i) = some row ∧ isHdrRow7 row = true := by
  intro l
  induction l with
  | nil =>
    intro i j
    simp [hdrIdxsGo]
  | cons row rest ih =>
    intro i j
    rw [hdrIdxsGo]
    by_cases hh : isHdrRow7 row
    · rw [if_pos hh]
      simp only [List.mem_cons, ih]
      constructor
      · rintro (rfl | ⟨h1, r', hr', hr2⟩)
        · exact ⟨Nat.le_refl j, row, by simp, hh⟩
        · refine ⟨by omega, r', ?_, hr2⟩
          rw [show j - i = (j - (i + 1)) + 1 by omega]
          simpa using hr'
      · rintro ⟨h1, r', hr', hr2⟩
        by_cases he : j = i
        · exact Or.inl he
        · refine Or.inr ⟨by omega, r', ?_, hr2⟩
          rw [show j - (i + 1) = (j - i) - 1 by omega]
          rcases Nat.exists_eq_add_of_lt (show i < j by omega) with ⟨k, rfl⟩
          simp only [show i + k + 1 - i = k + 1 by omega] at hr'
          simpa [show i + k + 1 - i - 1 = k by omega] using hr'
    · rw [if_neg hh]
      rw [ih]
      constructor
      · rintro ⟨h1, r', hr', hr2⟩
        refine ⟨by omega, r', ?_, hr2⟩
        rw [show j - i = (j - (i + 1)) + 1 by omega]
        simpa using hr'
      · rintro ⟨h1, r', hr', hr2⟩
        by_cases he : j = i
        · subst he
          simp only [Nat.sub_self, List.get?_cons_zero] at hr'
          rcases Option.some_inj.mp hr' with rfl
          exact absurd hr2 (by simp [hh])
        · refine ⟨by omega, r', ?_, hr2⟩
          rcases Nat.exists_eq_add_of_lt (show i < j by omega) with ⟨k, rfl⟩
          simp only [show i + k + 1 - i = k + 1 by omega] at hr'
          simpa [show i + k + 1 - (i + 1) = k by omega] using hr'

theorem headerIdxs_mem {m : Matrix} {j : Nat} :
    j ∈ headerIdxs m ↔ hdrRowAt7 m j := by
  rw [headerIdxs, hdrIdxsGo_mem]
  unfold hdrRowAt7
  simp

theorem hdrIdxsGo_headD (l : List (List String)) :
    ∀ i, (hdrIdxsGo i l).headD (i + l.length) =
      i + ((firstIdx? isHdrRow7 l).getD l.length) := by
  induction l with
  | nil =>
    intro i
    simp [hdrIdxsGo, firstIdx?]
  | cons row rest ih =>
    intro i
    rw [hdrIdxsGo, firstIdx?]
    by_cases hh : isHdrRow7 row
    · rw [if_pos hh, if_pos hh]
      simp
    · rw [if_neg hh, if_neg hh]
      have := ih (i + 1)
      rcases hf : firstIdx? isHdrRow7 rest with _ | k
      · rw [hf] at this
        simp only [Option.getD_none, Option.map_none'] at this ⊢
        rw [show i + (row :: rest).length = (i + 1) + rest.length by simp only [List.length_cons]; omega]
        exact this
      · rw [hf] at this
        simp only [Option.getD_some, Option.map_some'] at this ⊢
        rw [show i + (row :: rest).length = (i + 1) + rest.length by simp only [List.length_cons]; omega]
        rw [this]
        omega

theorem pairsWithEnd_cons (a : Nat) (t : List Nat) (len : Nat) :
    pairsWithEnd (a :: t) len = (a, t.headD len) :: pairsWithEnd t len := by
  cases t with
  | nil => rfl
  | cons b t' => rfl

theorem pairs_spec (l : List (List String)) :
    ∀ i, pairsWithEnd (hdrIdxsGo i l) (i + l.length) =
      (hdrIdxsGo i l).map (fun h =>
        (h, h + 1 + ((firstIdx? isHdrRow7 (l.drop (h + 1 - i))).getD
          (l.drop (h + 1 - i)).length))) := by
  induction l with
  | nil =>
    intro i
    rfl
  | cons row rest ih =>
    intro i
    have hcong : ∀ h ∈ hdrIdxsGo (i + 1) rest,
        (h, h + 1 + ((firstIdx? isHdrRow7 (rest.drop (h + 1 - (i + 1)))).getD
          (rest.drop (h + 1 - (i + 1))).length)) =
        (h, h + 1 + ((firstIdx? isHdrRow7 ((row :: rest).drop (h + 1 - i))).getD
          ((row :: rest).drop (h + 1 - i)).length)) := by
      intro h hmem
      have hge : i + 1 ≤ h := (hdrIdxsGo_mem rest (i + 1) h).mp hmem |>.1
      have hdrop : (row :: rest).drop (h + 1 - i) = rest.drop (h + 1 - (i + 1)) := by
        rw [show h + 1 - i = (h + 1 - (i + 1)) + 1 by omega]
        simp
      rw [hdrop]
    rw [hdrIdxsGo]
    by_cases hh : isHdrRow7 row
    · rw [if_pos hh, pairsWithEnd_cons, List.map_cons]
      have hlen : i + (row :: rest).length = (i + 1) + rest.length := by
        simp only [List.length_cons]
        omega
      rw [hlen]
      rw [hdrIdxsGo_headD rest (i + 1)]
      rw [ih (i + 1), List.map_congr_left hcong]
      simp only [show i + 1 - i = 1 by omega, List.drop_one, List.tail_cons]
    · rw [if_neg hh]
      have hlen : i + (row :: rest).length = (i + 1) + rest.length := by
        simp only [List.length_cons]
        omega
      rw [hlen, ih (i + 1), List.map_congr_left hcong]

theorem pairs_spec_zero (m : Matrix) :
    pairsWithEnd (headerIdxs m) m.length =
      (headerIdxs m).map (fun h => (h, nextHdr m h)) := by
  have := pairs_spec m 0
  rw [Nat.zero_add] at this
  rw [headerIdxs, this]
  apply List.map_congr_left
  intro h _
  rw [nextHdr]
  simp

theorem nextHdr_spec {m : Matrix} {h : Nat} (hlt : h < m.length) :
    h < nextHdr m h ∧ nextHdr m h ≤ m.length ∧
    (∀ j, h < j → j < nextHdr m h → ¬ hdrRowAt7 m j) ∧
    (nextHdr m h = m.length ∨ hdrRowAt7 m (nextHdr m h)) := by
  rw [nextHdr]
  rcases hf : firstIdx? isHdrRow7 (m.drop (h + 1)) with _ | k
  · have hall := firstIdx?_eq_none.mp hf
    simp only [Option.getD_none, List.length_drop]
    refine ⟨by omega, by omega, ?_, Or.inl (by omega)⟩
    intro j hj1 hj2 hcon
    rcases hcon with ⟨row, hrow, hhdr⟩
    have hget : (m.drop (h + 1)).get? (j - (h + 1)) = some row := by
      rw [List.get?_drop, show h + 1 + (j - (h + 1)) = j by omega]
      exact hrow
    have h2 := hall row (List.get?_mem hget)
    rw [h2] at hhdr
    exact Bool.false_ne_true hhdr
  · rcases firstIdx?_eq_some.mp hf with ⟨⟨row, hrow, hp⟩, hmin⟩
    rw [List.get?_drop] at hrow
    simp only [Option.getD_some]
    have hklen : h + 1 + k < m.length := (List.get?_eq_some.mp hrow).1
    refine ⟨by omega, by omega, ?_, Or.inr ⟨row, hrow, hp⟩⟩
    intro j hj1 hj2 hcon
    rcases hcon with ⟨row', hrow', hhdr'⟩
    have hget : (m.drop (h + 1)).get? (j - (h + 1)) = some row' := by
      rw [List.get?_drop, show h + 1 + (j - (h + 1)) = j by omega]
      exact hrow'
    have h2 := hmin (j - (h + 1)) (by omega) row' hget
    rw [h2] at hhdr'
    exact Bool.false_ne_true hhdr'

theorem nextHdr_eq {m : Matrix} {h e : Nat} (hlt : h < m.length)
    (he1 : h < e) (he2 : e ≤ m.length)
    (hno : ∀ j, h < j → j < e → ¬ hdrRowAt7 m j)
    (hend : e = m.length ∨ hdrRowAt7 m e) :
    nextHdr m h = e := by
  rw [nextHdr]
  rcases hend with rfl | hhdr
  · have hnone : firstIdx? isHdrRow7 (m.drop (h + 1)) = none := by
      rw [firstIdx?_eq_none]
      intro row hrow
      rcases List.mem_iff_get?.mp hrow with ⟨k, hk⟩
      rw [List.get?_drop] at hk
      have hklen : h + 1 + k < m.length := (List.get?_eq_some.mp hk).1
      by_cases hc : isHdrRow7 row
      · exact absurd ⟨row, hk, hc⟩ (hno (h + 1 + k) (by omega) (by omega))
      · exact eq_false_of_ne_true hc
    rw [hnone]
    simp only [Option.getD_none, List.length_drop]
    omega
  · have hsome : firstIdx? isHdrRow7 (m.drop (h + 1)) = some (e - (h + 1)) := by
      rw [firstIdx?_eq_some]
      rcases hhdr with ⟨row, hrow, hp⟩
      refine ⟨⟨row, ?_, hp⟩, ?_⟩
      · rw [List.get?_drop, show h + 1 + (e - (h + 1)) = e by omega]
        exact hrow
      · intro j hj row' hrow'
        rw [List.get?_drop] at hrow'
        by_cases hc : isHdrRow7 row'
        · exact absurd ⟨row', hrow', hc⟩ (hno (h + 1 + j) (by omega) (by omega))
        · exact eq_false_of_ne_true hc
    rw [hsome]
    simp only [Option.getD_some]
    omega

/-- Claim C8: the exported workbook contains exactly one sheet per embedded
header row (column B equal to "category" case-insensitively) whose block,
running to the next header row or the end of the table, has at least one
data row; the sheet is built by `step7Sheet` from that block (named from the
top-level category of the block's first data row, column A dropped). -/
theorem step7_spec (m : Matrix) (s : String × Matrix) :
    s ∈ step7Sheets m ↔
      2 ≤ m.length ∧ ∃ h e, hdrRowAt7 m h ∧ h + 2 ≤ e ∧ e ≤ m.length ∧
        (∀ j, h < j → j < e → ¬ hdrRowAt7 m j) ∧
        (e = m.length ∨ hdrRowAt7 m e) ∧
        s = step7Sheet ((m.drop h).take (e - h)) := by
  rw [step7Sheets]
  by_cases hm : m.length < 2
  · rw [if_pos hm]
    simp only [List.not_mem_nil, false_iff]
    rintro ⟨h2, -⟩
    omega
  · rw [if_neg hm, pairs_spec_zero]
    constructor
    · intro hs
      rcases List.mem_filterMap.mp hs with ⟨he, hemem, heq⟩
      rcases List.mem_map.mp hemem with ⟨h, hh, rfl⟩
      have hhdr : hdrRowAt7 m h := headerIdxs_mem.mp hh
      have hlt : h < m.length := by
        rcases hhdr with ⟨row, hrow, -⟩
        exact (List.get?_eq_some.mp hrow).1
      rcases nextHdr_spec hlt with ⟨h1, h2, h3, h4⟩
      simp only at heq
      have hchunklen : ((m.drop h).take (nextHdr m h - h)).length = nextHdr m h - h := by
        rw [List.length_take, List.length_drop]
        omega
      by_cases hcl : ((m.drop h).take (nextHdr m h - h)).length < 2
      · rw [if_pos hcl] at heq
        exact absurd heq (by simp)
      · rw [if_neg hcl] at heq
        refine ⟨by omega, h, nextHdr m h, hhdr, by omega, h2, h3, h4, ?_⟩
        exact (Option.some_inj.mp heq).symm
    · rintro ⟨h2, h, e, hhdr, he1, he2, hno, hend, rfl⟩
      have hlt : h < m.length := by
        rcases hhdr with ⟨row, hrow, -⟩
        exact (List.get?_eq_some.mp hrow).1
      have hne : nextHdr m h = e := nextHdr_eq hlt (by omega) he2 hno hend
      apply List.mem_filterMap.mpr
      refine ⟨(h, nextHdr m h),
        List.mem_map.mpr ⟨h, headerIdxs_mem.mpr hhdr, rfl⟩, ?_⟩
      simp only
      rw [hne]
      have hcl : ¬ ((m.drop h).take (e - h)).length < 2 := by
        rw [List.length_take, List.length_drop]
        omega
      rw [if_neg hcl]

end Shopee
